import Mathlib

/-!
# Department rename service: the scan / match / replace core of `rename.go`

A shallow embedding of `readFile`, `findFile`, `writeToFile` and `rename`
from `src/rename.go`, together with the two library facilities they are
built on:

* `bufio.Reader.ReadLine` with the default 4096-byte buffer of
  `bufio.NewReader`, whose `isPrefix` result the source discards.  The buffer
  is counted in bytes; an over-long line cut in the middle of a multi-byte
  character is delivered as two pieces that end and begin with the bytes of
  the cut character.
* the package `regexp`.  The source functions take the package as a
  parameter (`RegexpLib`): what they do with its answers is theirs, the
  answers are the package's.  `goRegexp ext` is the package with the
  following part computed: patterns made of literal characters, `.` and
  bracket classes that list their members, and replacement templates without
  `$`.  Everything else is left to `ext`, which stands for the rest of the
  package and is universally quantified in every statement.

Stored text is a list of `Sym`: each is a well-formed UTF-8 character or a
single byte that belongs to no well-formed character.
-/

namespace Rename

/-! ## Data model -/

/-- Errors of the operating system while opening or reading the store. -/
inductive IOError where
  | notExist
  | device (code : Nat)
deriving DecidableEq, Repr

/-- Ways in which a call does not return a value: an I/O error (which
`rename` escalates with `panic`), or the panic of `regexp.MustCompile` on a
pattern that does not compile. -/
inductive Failure where
  | io (e : IOError)
  | patternPanic
deriving DecidableEq, Repr

/-- One unit of stored text: a well-formed UTF-8 character, or one byte that
is part of no well-formed character (such as a byte of a character that the
reader's buffer has cut in two). -/
inductive Sym where
  | rune (c : Char)
  | frag (b : Nat)
deriving DecidableEq, Repr

/-- The character that `utf8.DecodeRune` yields: the character itself, or
U+FFFD for a byte that decodes to nothing. -/
def Sym.sem : Sym → Char
  | Sym.rune c => c
  | Sym.frag _ => '\uFFFD'

/-- Well-formed text as stored text. -/
def text (s : List Char) : List Sym := s.map Sym.rune

/-- Number of bytes of a character in UTF-8 (`utf8.RuneLen`). -/
def runeLen (c : Char) : Nat :=
  if c.toNat < 0x80 then 1
  else if c.toNat < 0x800 then 2
  else if c.toNat < 0x10000 then 3
  else 4

/-- The bytes of a character in UTF-8. -/
def utf8Bytes (c : Char) : List Nat :=
  if c.toNat < 0x80 then [c.toNat]
  else if c.toNat < 0x800 then [0xC0 + c.toNat / 64, 0x80 + c.toNat % 64]
  else if c.toNat < 0x10000 then
    [0xE0 + c.toNat / 4096, 0x80 + c.toNat / 64 % 64, 0x80 + c.toNat % 64]
  else
    [0xF0 + c.toNat / 262144, 0x80 + c.toNat / 4096 % 64, 0x80 + c.toNat / 64 % 64,
      0x80 + c.toNat % 64]

/-- Number of bytes of a unit of stored text. -/
def Sym.size : Sym → Nat
  | Sym.rune c => runeLen c
  | Sym.frag _ => 1

/-- Number of bytes of stored text. -/
def byteLen (s : List Sym) : Nat := (s.map Sym.size).sum

/-- Number of bytes of a text in UTF-8. -/
def utf8Len (s : List Char) : Nat := (s.map runeLen).sum

/-- A stored file: its content, and the error (if any) that the device
reports once the content has been delivered, in place of end-of-file. -/
structure File where
  data : List Sym
  fault : Option IOError
deriving DecidableEq, Repr

/-- The file system seen by the service: a path opens to a file or not. -/
abbrev FileSystem := String → Option File

/-- Name of the target file (`const FILENAME`). -/
def FILENAME : String := "test.txt"

/-- Size of the buffer that `bufio.NewReader` allocates. -/
def defaultBufSize : Nat := 4096

/-- The line terminator appended to every emitted line, `[]byte("\r\n")`,
as characters. -/
def crlf : List Char := ['\r', '\n']

/-! ## `bufio.Reader.ReadLine` -/

/-- The first `n` bytes of the unread data and what follows.  When the cut
falls inside a character, its first bytes end the piece and its other bytes
begin what follows. -/
def takeBytes : List Sym → Nat → List Sym × List Sym
  | [], _ => ([], [])
  | s :: rest, n =>
    if n = 0 then ([], s :: rest)
    else if s.size ≤ n then
      (s :: (takeBytes rest (n - s.size)).1, (takeBytes rest (n - s.size)).2)
    else
      match s with
      | Sym.rune c =>
        (((utf8Bytes c).take n).map Sym.frag, ((utf8Bytes c).drop n).map Sym.frag ++ rest)
      | Sym.frag b => ([Sym.frag b], rest)

/-- Drop one trailing carriage return from stored text. -/
def chompS (l : List Sym) : List Sym :=
  if l.getLast? = some (Sym.rune '\r') then l.dropLast else l

/-- One call of `ReadLine` on the unread data, with a buffer of `n` bytes:
`none` at the end of the data, otherwise the delivered line and what is left.
A line whose `'\n'` is not among the first `n` unread bytes is cut after `n`
bytes (the `isPrefix` case); a `'\r'` ending such a piece is put back.
Otherwise the terminator `"\n"` or `"\r\n"` is dropped; data that ends
without a terminator is delivered as it is. -/
def readLine (n : Nat) (data : List Sym) : Option (List Sym × List Sym) :=
  if data = [] then none
  else
    let pre := data.takeWhile (fun c => c != Sym.rune '\n')
    if byteLen pre < n ∧ pre.length < data.length then
      -- the delimiter is in the buffer: drop "\n" or "\r\n"
      some (chompS pre, data.drop (pre.length + 1))
    else if n ≤ byteLen data then
      -- buffer full without a delimiter
      if (takeBytes data n).1.getLast? = some (Sym.rune '\r') then
        some ((takeBytes data n).1.dropLast, Sym.rune '\r' :: (takeBytes data n).2)
      else some ((takeBytes data n).1, (takeBytes data n).2)
    else
      -- the data ends without a delimiter
      some (data, [])

/-- The lines delivered by repeated `ReadLine` calls, with explicit fuel. -/
def readLinesAux (n : Nat) : Nat → List Sym → List (List Sym)
  | 0, _ => []
  | fuel + 1, data =>
    match readLine n data with
    | none => []
    | some (line, rest) => line :: readLinesAux n fuel rest

/-- All lines that the loop `for { line, _, err := reader.ReadLine() ... }`
sees before the reader reports end-of-file or an error. -/
def readLines (n : Nat) (data : List Sym) : List (List Sym) :=
  readLinesAux n (byteLen data + 1) data

/-! ## The package `regexp`, as the source uses it -/

/-- The answers of the package `regexp`, keyed by the pattern text:
whether the pattern compiles, whether it matches somewhere in a text
(`Regexp.Match`), and the results of `Regexp.ReplaceAllFunc` and of
`Regexp.ReplaceAll` with a replacement template. -/
structure RegexpLib where
  valid : List Sym → Bool
  isMatch : List Sym → List Sym → Bool
  replaceAllFunc : List Sym → List Sym → (List Sym → List Sym) → List Sym
  replaceAll : List Sym → List Sym → List Sym → List Sym

/-! ## The source functions -/

/-- The pattern built at lines 242 and 280: `"[,\"]" + origin + "[,\"]"`. -/
def boundedPattern (origin : List Char) : List Char :=
  ['[', ',', '"', ']'] ++ origin ++ ['[', ',', '"', ']']

/-- The same pattern for an origin given as stored text. -/
def patternOf (origin : List Sym) : List Sym :=
  text ['[', ',', '"', ']'] ++ origin ++ text ['[', ',', '"', ']']

/-- The test `if ok, _ := regexp.Match(pattern, line); ok` of lines 248 and
281: the error of a pattern that does not compile is dropped and the answer
is then `false`. -/
def regexpMatch (lib : RegexpLib) (pattern line : List Sym) : Bool :=
  lib.valid pattern && lib.isMatch pattern line

/-- The closure `replaceFunc` of `readFile`, once `regexp.MustCompile(origin)`
has succeeded: all matches of `origin` in the matched segment are replaced
with the template `target`. -/
def replaceFunc (lib : RegexpLib) (origin target : List Sym) (s : List Sym) : List Sym :=
  lib.replaceAll origin s target

/-- The body of the loop of `readFile` for one delivered line: the bytes
appended to `output` and whether the line was flagged.  On a flagged line
`ReplaceAllFunc` calls `replaceFunc` on the matches, and `MustCompile(origin)`
in it panics when `origin` alone does not compile. -/
def processLine (lib : RegexpLib) (origin target line : List Sym) :
    Except Failure (List Sym × Bool) :=
  if regexpMatch lib (patternOf origin) line then
    if lib.valid origin then
      Except.ok (lib.replaceAllFunc (patternOf origin) line (replaceFunc lib origin target)
        ++ text crlf, true)
    else Except.error Failure.patternPanic
  else Except.ok (line ++ text crlf, false)

/-- The loop of `readFile` over the delivered lines, carrying `output` and
`needHandle`; when the lines are exhausted the reader reports end-of-file
(`fault = none`) or a read error. -/
def readFileLoop (lib : RegexpLib) (origin target : List Sym) (fault : Option IOError) :
    List (List Sym) → List Sym → Bool → Except Failure (List Sym × Bool)
  | [], output, needHandle =>
    match fault with
    | none => Except.ok (output, needHandle)
    | some e => Except.error (Failure.io e)
  | line :: rest, output, needHandle =>
    match processLine lib origin target line with
    | Except.error e => Except.error e
    | Except.ok (bytes, flagged) =>
      readFileLoop lib origin target fault rest (output ++ bytes) (needHandle || flagged)

/-- Model of `readFile(filePath, origin, target)`. -/
def readFile (lib : RegexpLib) (fs : FileSystem) (filePath : String)
    (origin target : List Sym) : Except Failure (List Sym × Bool) :=
  match fs filePath with
  | none => Except.error (Failure.io IOError.notExist)
  | some f =>
    readFileLoop lib origin target f.fault (readLines defaultBufSize f.data) [] false

/-- The loop of `findFile`: stop with `true` at the first flagged line. -/
def findFileLoop (lib : RegexpLib) (origin : List Sym) (fault : Option IOError) :
    List (List Sym) → Except Failure Bool
  | [] =>
    match fault with
    | none => Except.ok false
    | some e => Except.error (Failure.io e)
  | line :: rest =>
    if regexpMatch lib (patternOf origin) line then Except.ok true
    else findFileLoop lib origin fault rest

/-- Model of `findFile(filePath, origin)`. -/
def findFile (lib : RegexpLib) (fs : FileSystem) (filePath : String)
    (origin : List Sym) : Except Failure Bool :=
  match fs filePath with
  | none => Except.error (Failure.io IOError.notExist)
  | some f => findFileLoop lib origin f.fault (readLines defaultBufSize f.data)

/-- Model of `writeToFile(filePath, outPut)`: the file is opened with
`O_WRONLY|O_TRUNC` (it must exist) and receives exactly `outPut`. -/
def writeToFile (fs : FileSystem) (filePath : String) (outPut : List Sym) :
    Except IOError FileSystem :=
  match fs filePath with
  | none => Except.error IOError.notExist
  | some f =>
    Except.ok (fun p => if p = filePath then some { data := outPut, fault := f.fault } else fs p)

/-- Model of `rename(origin, target)`, with the directory of the executable
as a parameter.  The result is the file system after the call and its
outcome: `Except.error` stands for a panic. -/
def rename (lib : RegexpLib) (fs : FileSystem) (rootPath : String)
    (origin target : List Sym) : FileSystem × Except Failure Bool :=
  let file := rootPath ++ FILENAME
  match readFile lib fs file origin target with
  | Except.error e => (fs, Except.error e)
  | Except.ok (output, needHandle) =>
    if needHandle then
      match writeToFile fs file output with
      | Except.error e => (fs, Except.error (Failure.io e))
      | Except.ok fs' => (fs', Except.ok true)
    else (fs, Except.ok false)

/-! ## The computed part of `regexp`, on decoded characters -/

/-- One pattern element; each matches exactly one character. -/
inductive Atom where
  | lit (c : Char)
  | anyNotNL
  | cls (members : List Char)
deriving DecidableEq, Repr

/-- Characters with a special meaning in the pattern language. -/
def metaChars : List Char :=
  ['\\', '.', '+', '*', '?', '(', ')', '|', '[', ']', '{', '}', '^', '$']

/-- Whether a character is a regexp metacharacter. -/
def isMeta (c : Char) : Bool := metaChars.contains c

/-- Whether an atom accepts a character. -/
def Atom.accepts : Atom → Char → Bool
  | Atom.lit c, x => x == c
  | Atom.anyNotNL, x => x != '\n'
  | Atom.cls members, x => members.contains x

/-- Pattern compiler for the fragment.  The first argument is `some acc`
while inside a bracket class whose members so far are `acc`.  `none` as a
result means the pattern is invalid or outside the fragment. -/
def compileAux : Option (List Char) → List Char → Option (List Atom)
  | none, [] => some []
  | some _, [] => none
  | none, c :: rest =>
    if c = '.' then (compileAux none rest).map (fun r => Atom.anyNotNL :: r)
    else if c = '[' then compileAux (some []) rest
    else if isMeta c then none
    else (compileAux none rest).map (fun r => Atom.lit c :: r)
  | some acc, c :: rest =>
    if c = ']' then
      (if acc = [] then none
       else (compileAux none rest).map (fun r => Atom.cls acc :: r))
    else if isMeta c ∨ c = '-' then none
    else compileAux (some (acc ++ [c])) rest

/-- The compiler of the computed part; `none` for every other pattern. -/
def compile (pattern : List Char) : Option (List Atom) :=
  compileAux none pattern

/-- Whether the compiled pattern matches at the very start of the text. -/
def matchHere : List Atom → List Char → Bool
  | [], _ => true
  | _ :: _, [] => false
  | a :: as, c :: cs => a.accepts c && matchHere as cs

/-- Whether the compiled pattern matches anywhere in the text. -/
def search (re : List Atom) : List Char → Bool
  | [] => matchHere re []
  | c :: cs => matchHere re (c :: cs) || search re cs

/-- The replacement loop of `Regexp.replaceAll` for a non-empty pattern:
the leftmost match is replaced, the search resumes right after it, and
unmatched characters are copied.  The counter is the number of characters
of the current match still to be skipped. -/
def replaceAllAux (re : List Atom) (repl : List Char → List Char) :
    Nat → List Char → List Char
  | _, [] => []
  | skip + 1, _ :: cs => replaceAllAux re repl skip cs
  | 0, c :: cs =>
    if matchHere re (c :: cs) then
      repl ((c :: cs).take re.length) ++ replaceAllAux re repl (re.length - 1) cs
    else c :: replaceAllAux re repl 0 cs

/-- The result of `Regexp.ReplaceAllFunc(src, repl)` on decoded text.  The
empty pattern matches the empty string before every character and at the
end. -/
def replaceAllFunc (re : List Atom) (repl : List Char → List Char)
    (src : List Char) : List Char :=
  if re = [] then repl [] ++ src.flatMap (fun c => c :: repl [])
  else replaceAllAux re repl 0 src

/-! ## The computed part of `regexp`, on stored text -/

/-- The characters of a pattern; `none` when it holds a byte that decodes to
nothing (`regexp` rejects a pattern that is not UTF-8). -/
def decodePattern : List Sym → Option (List Char)
  | [] => some []
  | Sym.rune c :: rest => (decodePattern rest).map (fun r => c :: r)
  | Sym.frag _ :: _ => none

/-- The compiler of the computed part on a pattern given as stored text. -/
def compileS (pattern : List Sym) : Option (List Atom) :=
  (decodePattern pattern).bind compile

/-- Whether stored text is well-formed throughout. -/
def isClean (s : List Sym) : Bool :=
  s.all (fun x => match x with
    | Sym.rune _ => true
    | Sym.frag _ => false)

/-- Whether the compiled pattern begins with a literal character. -/
def hasLiteralPrefix : List Atom → Bool
  | Atom.lit _ :: _ => true
  | _ => false

/-- Whether the run of a compiled pattern over a text is computed here:
`regexp` looks for a literal prefix byte by byte and runs the rest character
by character, which can only differ when the pattern holds U+FFFD and the
text a byte that decodes to nothing.  That case is left out. -/
def runeWise (re : List Atom) (pattern src : List Sym) : Bool :=
  !hasLiteralPrefix re || !pattern.contains (Sym.rune '\uFFFD') || isClean src

/-- The replacement loop on stored text: matches are decided on the decoded
characters, the units themselves are copied or handed to `repl`. -/
def replaceAllAuxS (re : List Atom) (repl : List Sym → List Sym) :
    Nat → List Sym → List Sym
  | _, [] => []
  | skip + 1, _ :: cs => replaceAllAuxS re repl skip cs
  | 0, c :: cs =>
    if matchHere re ((c :: cs).map Sym.sem) then
      repl ((c :: cs).take re.length) ++ replaceAllAuxS re repl (re.length - 1) cs
    else c :: replaceAllAuxS re repl 0 cs

/-- The result of `Regexp.ReplaceAllFunc(src, repl)` on stored text. -/
def replaceAllFuncS (re : List Atom) (repl : List Sym → List Sym)
    (src : List Sym) : List Sym :=
  if re = [] then repl [] ++ src.flatMap (fun c => c :: repl [])
  else replaceAllAuxS re repl 0 src

/-- The package `regexp` with its computed part: patterns that `compileS`
accepts are run here, and a template without `$` is inserted as it is; every
other answer is that of `ext`, the rest of the package. -/
def goRegexp (ext : RegexpLib) : RegexpLib where
  valid pattern :=
    match compileS pattern with
    | some _ => true
    | none => ext.valid pattern
  isMatch pattern src :=
    match compileS pattern with
    | some re =>
      if runeWise re pattern src then search re (src.map Sym.sem)
      else ext.isMatch pattern src
    | none => ext.isMatch pattern src
  replaceAllFunc pattern src repl :=
    match compileS pattern with
    | some re =>
      if runeWise re pattern src then replaceAllFuncS re repl src
      else ext.replaceAllFunc pattern src repl
    | none => ext.replaceAllFunc pattern src repl
  replaceAll pattern src template :=
    match compileS pattern with
    | some re =>
      if runeWise re pattern src && !template.contains (Sym.rune '$') then
        replaceAllFuncS re (fun _ => template) src
      else ext.replaceAll pattern src template
    | none => ext.replaceAll pattern src template

/-! ## Specification-level notions -/

/-- The two boundary characters, comma and double quote. -/
def isDelim (c : Char) : Bool := c == ',' || c == '"'

/-- The value `v` occurs in `line` as a literal substring immediately
preceded and immediately followed by a comma or a double quote. -/
def BoundedIn (v line : List Char) : Prop :=
  ∃ pre d1 d2 post, isDelim d1 = true ∧ isDelim d2 = true ∧
    line = pre ++ d1 :: (v ++ d2 :: post)

/-- The text starts with a boundary character, then `v`, then a boundary
character. -/
def boundedHere (v : List Char) : List Char → Bool
  | [] => false
  | d1 :: rest =>
    isDelim d1 && v.isPrefixOf rest &&
      (match rest.drop v.length with
       | [] => false
       | d2 :: _ => isDelim d2)

/-- Executable form of `BoundedIn`. -/
def containsBounded (v : List Char) : List Char → Bool
  | [] => false
  | c :: cs => boundedHere v (c :: cs) || containsBounded v cs

/-- No character of the value is a regexp metacharacter. -/
def MetaFree (v : List Char) : Prop := ∀ c ∈ v, isMeta c = false

instance (v : List Char) : Decidable (MetaFree v) :=
  inferInstanceAs (Decidable (∀ c ∈ v, isMeta c = false))

/-- Drop one trailing carriage return. -/
def chomp (l : List Char) : List Char :=
  if l.getLast? = some '\r' then l.dropLast else l

/-- The text lines of a store: the pieces ended by `"\n"` or `"\r\n"`,
without their terminator, and a last unterminated piece if it is not
empty.  The first argument is the piece read so far. -/
def textLinesAux : List Char → List Char → List (List Char)
  | cur, [] => if cur = [] then [] else [cur]
  | cur, c :: cs =>
    if c = '\n' then chomp cur :: textLinesAux [] cs
    else textLinesAux (cur ++ [c]) cs

/-- The text lines of a store. -/
def textLines (data : List Char) : List (List Char) := textLinesAux [] data

/-- A file system holding one readable file with the given content. -/
def storeOf (path : String) (data : List Sym) : FileSystem :=
  fun p => if p = path then some { data := data, fault := none } else none

/-- A file system holding one readable store of well-formed text. -/
def storeAt (path : String) (data : List Char) : FileSystem :=
  storeOf path (text data)

/-- The compiled form of `[,"]` + v + `[,"]` for a metacharacter-free `v`. -/
def boundedRe (v : List Char) : List Atom :=
  Atom.cls [',', '"'] :: (v.map Atom.lit ++ [Atom.cls [',', '"']])

/-- What `readFile` makes of a flagged line of well-formed text when `origin`
is free of metacharacters and `target` of `$`: both patterns are literals. -/
def rewriteLine (origin target line : List Char) : List Char :=
  replaceAllFunc (boundedRe origin)
    (fun s => replaceAllFunc (origin.map Atom.lit) (fun _ => target) s) line

/-- The content emitted for a line: rewritten if flagged, unchanged if not. -/
def emitLine (origin target line : List Char) : List Char :=
  if containsBounded origin line then rewriteLine origin target line else line

/-- No character of the text is a boundary character. -/
def DelimFree (s : List Char) : Prop := ∀ c ∈ s, isDelim c = false

instance (s : List Char) : Decidable (DelimFree s) :=
  inferInstanceAs (Decidable (∀ c ∈ s, isDelim c = false))

/-- A plain department name: non-empty, without `,`, `"`, `$` or any other
regexp metacharacter. -/
def PlainName (s : List Char) : Prop := s ≠ [] ∧ MetaFree s ∧ DelimFree s

instance (s : List Char) : Decidable (PlainName s) :=
  inferInstanceAs (Decidable (s ≠ [] ∧ MetaFree s ∧ DelimFree s))

/-- A line cut at its boundary characters: the value before the first
boundary character, then each boundary character with the value after it. -/
def toFields : List Char → List Char × List (Char × List Char)
  | [] => ([], [])
  | c :: cs =>
    if isDelim c then ([], (c, (toFields cs).1) :: (toFields cs).2)
    else (c :: (toFields cs).1, (toFields cs).2)

/-- The text of a sequence of (boundary character, value) pairs. -/
def flatSegs : List (Char × List Char) → List Char
  | [] => []
  | (d, f) :: rest => d :: (f ++ flatSegs rest)

/-- The values of a line, in order. -/
def fields (line : List Char) : List (List Char) :=
  (toFields line).1 :: (toFields line).2.map Prod.snd

/-- The boundary characters of a line, in order. -/
def delims (line : List Char) : List Char :=
  (toFields line).2.map Prod.fst

/-- Every pair holds a boundary character and a value free of them. -/
def WellFormed (segs : List (Char × List Char)) : Prop :=
  ∀ p ∈ segs, isDelim p.1 = true ∧ DelimFree p.2

/-- The rewrite seen on the values of a line: a value equal to `a` that has a
boundary character on both sides becomes `b`, and the value that follows it is
passed over, its opening boundary character having been consumed. -/
def rwSegs (a b : List Char) : List (Char × List Char) → List (Char × List Char)
  | [] => []
  | [p] => [p]
  | (d1, f1) :: (d2, f2) :: rest =>
    if f1 = a then (d1, b) :: (d2, f2) :: rwSegs a b rest
    else (d1, f1) :: rwSegs a b ((d2, f2) :: rest)

/-- Whether some value with a boundary character on both sides equals `a`. -/
def anyInterior (a : List Char) : List (Char × List Char) → Bool
  | [] => false
  | [_] => false
  | (_, f1) :: (d2, f2) :: rest => decide (f1 = a) || anyInterior a ((d2, f2) :: rest)

/-- Plain substring replacement, as the specification words it: every
occurrence of the literal `o`, bounded or not, becomes `t` (leftmost first,
without overlap).  The counter is the number of characters still to skip. -/
def replaceLiteral (o t : List Char) : Nat → List Char → List Char
  | _, [] => []
  | skip + 1, _ :: cs => replaceLiteral o t skip cs
  | 0, c :: cs =>
    if o.isPrefixOf (c :: cs) then t ++ replaceLiteral o t (o.length - 1) cs
    else c :: replaceLiteral o t 0 cs

/-- Replacement of every delimiter-bounded occurrence of `o` by `t`, as the
specification words it: wherever a boundary character is followed by `o` and a
boundary character, `o` becomes `t`; the closing boundary character may open
the next occurrence.  The counter is the number of characters still to skip. -/
def replaceEveryBounded (o t : List Char) : Nat → List Char → List Char
  | _, [] => []
  | skip + 1, _ :: cs => replaceEveryBounded o t skip cs
  | 0, c :: cs =>
    if boundedHere o (c :: cs) then c :: (t ++ replaceEveryBounded o t o.length cs)
    else c :: replaceEveryBounded o t 0 cs

/-- No two delimiter-bounded occurrences of `o` in the line share a boundary
character: the line nowhere reads boundary, `o`, boundary, `o`, boundary. -/
def NoSharedDelim (o line : List Char) : Prop :=
  ¬ ∃ pre d1 d2 d3 post, isDelim d1 = true ∧ isDelim d2 = true ∧ isDelim d3 = true ∧
    line = pre ++ d1 :: (o ++ d2 :: (o ++ d3 :: post))

/-- Every value equal to `a` with a boundary character on both sides
becomes `b`. -/
def rwAll (a b : List Char) : List (Char × List Char) → List (Char × List Char)
  | [] => []
  | [p] => [p]
  | (d1, f1) :: (d2, f2) :: rest =>
    (d1, if f1 = a then b else f1) :: rwAll a b ((d2, f2) :: rest)

/-- Whether two consecutive values, each with a boundary character on both
sides, both equal `a`. -/
def adjInterior (a : List Char) : List (Char × List Char) → Bool
  | (_, f1) :: (d2, f2) :: (d3, f3) :: rest =>
    (decide (f1 = a) && decide (f2 = a)) || adjInterior a ((d2, f2) :: (d3, f3) :: rest)
  | _ => false


/-- The unread data at some point of a scan of the store `S`: what is left of
`S`, possibly behind the last bytes of a character that was cut, or a
carriage return that was put back. -/
def Unread (S D : List Sym) : Prop :=
  ∃ a Y, D = a ++ Y ∧ DelimFree (a.map Sym.sem) ∧ Y <:+ S

/-- A delivered line as a piece of the store `S`: a contiguous part of `S`,
possibly between bytes of characters that were cut. -/
def PieceOf (S L : List Sym) : Prop :=
  ∃ a X b, L = a ++ X ++ b ∧ DelimFree (a.map Sym.sem) ∧ DelimFree (b.map Sym.sem) ∧
    X <:+: S
/-! ## Theorems -/

/-! ### The pattern of a metacharacter-free value is a literal -/

theorem compileAux_lits (v rest : List Char) (hv : MetaFree v) :
    compileAux none (v ++ rest) =
      (compileAux none rest).map (fun r => v.map Atom.lit ++ r) := by
  induction v with
  | nil => simp
  | cons c cs ih =>
    have hc : isMeta c = false := hv c (by simp)
    have h1 : c ≠ '.' := by rintro rfl; revert hc; decide
    have h2 : c ≠ '[' := by rintro rfl; revert hc; decide
    have ih' := ih (fun x hx => hv x (by simp [hx]))
    simp [compileAux, h1, h2, hc, ih', Option.map_map, Function.comp_def]

theorem compileAux_class (rest : List Char) :
    compileAux none ('[' :: ',' :: '"' :: ']' :: rest) =
      (compileAux none rest).map (fun r => Atom.cls [',', '"'] :: r) := by
  simp [compileAux, isMeta, metaChars]

theorem compile_boundedPattern (v : List Char) (hv : MetaFree v) :
    compile (boundedPattern v) = some (boundedRe v) := by
  have h : boundedPattern v = '[' :: ',' :: '"' :: ']' :: (v ++ ['[', ',', '"', ']']) := by
    simp [boundedPattern]
  rw [compile, h, compileAux_class, compileAux_lits _ _ hv, compileAux_class]
  simp [compileAux, boundedRe]

theorem compile_lits (v : List Char) (hv : MetaFree v) :
    compile v = some (v.map Atom.lit) := by
  have := compileAux_lits v [] hv
  simpa [compile, compileAux] using this

theorem accepts_cls_delim (c : Char) :
    (Atom.cls [',', '"']).accepts c = isDelim c := by
  simp only [Atom.accepts, isDelim, List.contains, List.elem]
  cases (c == ',') <;> cases (c == '"') <;> rfl

theorem matchHere_lits (v : List Char) (re : List Atom) (s : List Char) :
    matchHere (v.map Atom.lit ++ re) s = true ↔
      ∃ t, s = v ++ t ∧ matchHere re t = true := by
  induction v generalizing s with
  | nil => simp
  | cons c cs ih =>
    cases s with
    | nil => simp [matchHere]
    | cons x xs =>
      have hstep : matchHere ((c :: cs).map Atom.lit ++ re) (x :: xs) =
          ((x == c) && matchHere (cs.map Atom.lit ++ re) xs) := rfl
      rw [hstep, Bool.and_eq_true, ih, beq_iff_eq]
      constructor
      · rintro ⟨rfl, t, rfl, ht⟩
        exact ⟨t, rfl, ht⟩
      · rintro ⟨t, h, ht⟩
        simp only [List.cons_append, List.cons.injEq] at h
        exact ⟨h.1, t, h.2, ht⟩

theorem matchHere_boundedRe (v s : List Char) :
    matchHere (boundedRe v) s = true ↔
      ∃ d1 d2 post, isDelim d1 = true ∧ isDelim d2 = true ∧
        s = d1 :: (v ++ d2 :: post) := by
  cases s with
  | nil => simp [boundedRe, matchHere]
  | cons x xs =>
    simp only [boundedRe, matchHere, Bool.and_eq_true, accepts_cls_delim, matchHere_lits]
    constructor
    · rintro ⟨hx, t, rfl, ht⟩
      cases t with
      | nil => simp [matchHere] at ht
      | cons y ys =>
        simp only [matchHere, Bool.and_eq_true, accepts_cls_delim, and_true] at ht
        exact ⟨x, y, ys, hx, ht, rfl⟩
    · rintro ⟨d1, d2, post, h1, h2, h⟩
      simp only [List.cons.injEq] at h
      obtain ⟨rfl, rfl⟩ := h
      exact ⟨h1, d2 :: post, rfl, by simp [matchHere, accepts_cls_delim, h2]⟩

theorem search_iff (re : List Atom) (s : List Char) :
    search re s = true ↔ ∃ pre t, s = pre ++ t ∧ matchHere re t = true := by
  induction s with
  | nil =>
    simp only [search]
    constructor
    · intro h; exact ⟨[], [], rfl, h⟩
    · rintro ⟨pre, t, h, ht⟩
      have : t = [] := by
        have := congrArg List.length h; simp at this; exact List.length_eq_zero.mp (by omega)
      simpa [this] using ht
  | cons c cs ih =>
    simp only [search, Bool.or_eq_true, ih]
    constructor
    · rintro (h | ⟨pre, t, rfl, ht⟩)
      · exact ⟨[], c :: cs, rfl, h⟩
      · exact ⟨c :: pre, t, rfl, ht⟩
    · rintro ⟨pre, t, h, ht⟩
      cases pre with
      | nil => left; simp at h; rw [h]; exact ht
      | cons p ps =>
        simp only [List.cons_append, List.cons.injEq] at h
        right; exact ⟨ps, t, h.2, ht⟩

theorem search_boundedRe (v line : List Char) :
    search (boundedRe v) line = true ↔ BoundedIn v line := by
  rw [search_iff, BoundedIn]
  constructor
  · rintro ⟨pre, t, rfl, ht⟩
    obtain ⟨d1, d2, post, h1, h2, rfl⟩ := (matchHere_boundedRe v t).1 ht
    exact ⟨pre, d1, d2, post, h1, h2, rfl⟩
  · rintro ⟨pre, d1, d2, post, h1, h2, rfl⟩
    exact ⟨pre, _, rfl, (matchHere_boundedRe v _).2 ⟨d1, d2, post, h1, h2, rfl⟩⟩

theorem boundedHere_eq_matchHere (v s : List Char) :
    boundedHere v s = matchHere (boundedRe v) s := by
  rw [Bool.eq_iff_iff, matchHere_boundedRe]
  cases s with
  | nil => simp [boundedHere]
  | cons x xs =>
    simp only [boundedHere, Bool.and_eq_true, List.isPrefixOf_iff_prefix]
    constructor
    · rintro ⟨⟨hx, t, rfl⟩, h⟩
      rw [List.drop_left] at h
      cases t with
      | nil => simp at h
      | cons y ys => exact ⟨x, y, ys, hx, h, rfl⟩
    · rintro ⟨d1, d2, post, h1, h2, h⟩
      simp only [List.cons.injEq] at h
      obtain ⟨rfl, rfl⟩ := h
      refine ⟨⟨h1, _, rfl⟩, ?_⟩
      rw [List.drop_left]
      exact h2

theorem containsBounded_eq_search (v s : List Char) :
    containsBounded v s = search (boundedRe v) s := by
  induction s with
  | nil => simp [containsBounded, search, boundedRe, matchHere]
  | cons c cs ih => simp [containsBounded, search, ih, boundedHere_eq_matchHere]

theorem containsBounded_iff (v line : List Char) :
    containsBounded v line = true ↔ BoundedIn v line := by
  rw [containsBounded_eq_search, search_boundedRe]

theorem containsBounded_false_of_not (o l : List Char) (h : ¬ BoundedIn o l) :
    containsBounded o l = false := by
  cases hc : containsBounded o l with
  | false => rfl
  | true => exact absurd ((containsBounded_iff o l).1 hc) h

theorem containsBounded_false_of_no_delim (o l : List Char)
    (h : ∀ c ∈ l, isDelim c = false) : containsBounded o l = false := by
  apply containsBounded_false_of_not
  rintro ⟨pre, d1, d2, post, h1, _, rfl⟩
  have := h d1 (by simp)
  rw [h1] at this
  exact Bool.noConfusion this

/-! ### Text lines -/

theorem split_at_newline (data : List Char) :
    '\n' ∉ data ∨ ∃ pre rest, '\n' ∉ pre ∧ data = pre ++ '\n' :: rest := by
  induction data with
  | nil => left; simp
  | cons c cs ih =>
    by_cases hc : c = '\n'
    · right; exact ⟨[], cs, by simp, by simp [hc]⟩
    · rcases ih with h | ⟨pre, rest, hpre, rfl⟩
      · left
        intro hmem
        rcases List.mem_cons.1 hmem with h1 | h1
        · exact hc h1.symm
        · exact h h1
      · right
        refine ⟨c :: pre, rest, ?_, rfl⟩
        intro hmem
        rcases List.mem_cons.1 hmem with h1 | h1
        · exact hc h1.symm
        · exact hpre h1

theorem textLinesAux_terminated (cur pre rest : List Char) (hpre : '\n' ∉ pre) :
    textLinesAux cur (pre ++ '\n' :: rest) = chomp (cur ++ pre) :: textLinesAux [] rest := by
  induction pre generalizing cur with
  | nil => simp [textLinesAux]
  | cons c cs ih =>
    have hc : c ≠ '\n' := fun h => hpre (by simp [h])
    have hcs : '\n' ∉ cs := fun h => hpre (by simp [h])
    simp [textLinesAux, hc, ih _ hcs]

theorem textLinesAux_unterminated (cur pre : List Char) (hpre : '\n' ∉ pre) :
    textLinesAux cur pre = if cur ++ pre = [] then [] else [cur ++ pre] := by
  induction pre generalizing cur with
  | nil => simp [textLinesAux]
  | cons c cs ih =>
    have hc : c ≠ '\n' := fun h => hpre (by simp [h])
    have hcs : '\n' ∉ cs := fun h => hpre (by simp [h])
    simp [textLinesAux, hc, ih _ hcs]

theorem utf8Len_append (a b : List Char) : utf8Len (a ++ b) = utf8Len a + utf8Len b := by
  simp [utf8Len]

theorem utf8Len_chomp (l : List Char) : utf8Len l ≤ utf8Len (chomp l) + 1 := by
  unfold chomp
  split
  · rename_i h
    obtain ⟨ys, hys⟩ := List.getLast?_eq_some_iff.1 h
    subst hys
    rw [List.dropLast_concat, utf8Len_append]
    exact Nat.le_refl _
  · omega

/-! ### The replacement loop on literal patterns -/

theorem replaceAllAux_skip (re : List Atom) (repl : List Char → List Char)
    (j : Nat) (cs : List Char) :
    replaceAllAux re repl j cs = replaceAllAux re repl 0 (cs.drop j) := by
  induction cs generalizing j with
  | nil => cases j <;> simp [replaceAllAux]
  | cons c cs ih =>
    cases j with
    | zero => simp
    | succ k => rw [replaceAllAux, ih k, List.drop_succ_cons]

theorem replaceAllAux_match (re : List Atom) (repl : List Char → List Char)
    (s : List Char) (hre : re ≠ []) (hs : s ≠ []) (h : matchHere re s = true) :
    replaceAllAux re repl 0 s =
      repl (s.take re.length) ++ replaceAllAux re repl 0 (s.drop re.length) := by
  cases s with
  | nil => exact absurd rfl hs
  | cons c cs =>
    rw [replaceAllAux, if_pos h, replaceAllAux_skip]
    have hk : re.length = (re.length - 1) + 1 := by
      have := List.length_pos.2 hre; omega
    have hd : (c :: cs).drop re.length = cs.drop (re.length - 1) := by
      rw [hk, List.drop_succ_cons]; simp
    rw [hd]

theorem replaceAllAux_nomatch (re : List Atom) (repl : List Char → List Char)
    (c : Char) (cs : List Char) (h : matchHere re (c :: cs) = false) :
    replaceAllAux re repl 0 (c :: cs) = c :: replaceAllAux re repl 0 cs := by
  rw [replaceAllAux, if_neg (by simp [h])]

theorem matchHere_lits_self (o t : List Char) :
    matchHere (o.map Atom.lit) (o ++ t) = true := by
  have := (matchHere_lits o [] (o ++ t)).2 ⟨t, rfl, by simp [matchHere]⟩
  simpa using this

theorem matchHere_lits_head_ne (c x : Char) (o xs : List Char) (h : x ≠ c) :
    matchHere ((c :: o).map Atom.lit) (x :: xs) = false := by
  simp [matchHere, Atom.accepts, h]

/-- The closure `replaceFunc` on a matched segment: the name between the two
boundary characters is replaced, the boundary characters stay. -/
theorem inner_replace_segment (o t : List Char) (d1 d2 : Char)
    (hne : o ≠ []) (ho : DelimFree o) (h1 : isDelim d1 = true) (h2 : isDelim d2 = true) :
    replaceAllFunc (o.map Atom.lit) (fun _ => t) (d1 :: (o ++ [d2])) = d1 :: (t ++ [d2]) := by
  cases o with
  | nil => exact absurd rfl hne
  | cons c o' =>
    have hc : isDelim c = false := ho c (by simp)
    have hd1 : d1 ≠ c := by rintro rfl; rw [h1] at hc; exact Bool.noConfusion hc
    have hd2 : d2 ≠ c := by rintro rfl; rw [h2] at hc; exact Bool.noConfusion hc
    have hre : (c :: o').map Atom.lit ≠ [] := by simp
    rw [replaceAllFunc, if_neg hre,
      replaceAllAux_nomatch _ _ _ _ (matchHere_lits_head_ne c d1 o' _ hd1),
      replaceAllAux_match _ _ _ hre (by simp) (matchHere_lits_self (c :: o') [d2])]
    simp only [List.length_map, List.take_left', List.drop_left']
    rw [replaceAllAux_nomatch _ _ _ _ (matchHere_lits_head_ne c d2 o' _ hd2)]
    simp [replaceAllAux]

/-! ### Lines as values separated by boundary characters -/

theorem flatSegs_head (segs : List (Char × List Char)) (hw : WellFormed segs) :
    flatSegs segs = [] ∨ ∃ d X, isDelim d = true ∧ flatSegs segs = d :: X := by
  cases segs with
  | nil => left; rfl
  | cons p rest =>
    right
    obtain ⟨d, f⟩ := p
    exact ⟨d, f ++ flatSegs rest, (hw (d, f) (by simp)).1, rfl⟩

theorem value_prefix_unique (f1 o X post : List Char) (d2 : Char)
    (hf : DelimFree f1) (ho : DelimFree o) (h2 : isDelim d2 = true)
    (hX : X = [] ∨ ∃ d X', isDelim d = true ∧ X = d :: X')
    (h : f1 ++ X = o ++ d2 :: post) : f1 = o ∧ X = d2 :: post := by
  induction f1 generalizing o with
  | nil =>
    cases o with
    | nil => exact ⟨rfl, by simpa using h⟩
    | cons c o' =>
      rcases hX with rfl | ⟨d, X', hd, rfl⟩
      · simp at h
      · simp only [List.nil_append, List.cons_append, List.cons.injEq] at h
        have hc := ho c (by simp)
        rw [← h.1, hd] at hc
        exact Bool.noConfusion hc
  | cons a f1' ih =>
    cases o with
    | nil =>
      simp only [List.cons_append, List.nil_append, List.cons.injEq] at h
      have ha := hf a (by simp)
      rw [h.1, h2] at ha
      exact Bool.noConfusion ha
    | cons c o' =>
      simp only [List.cons_append, List.cons.injEq] at h
      obtain ⟨hfo, hx⟩ := ih o' (fun x hx => hf x (by simp [hx]))
        (fun x hx => ho x (by simp [hx])) h.2
      exact ⟨by rw [h.1, hfo], hx⟩

theorem boundedRe_ne_nil (o : List Char) : boundedRe o ≠ [] := by simp [boundedRe]

theorem boundedRe_length (o : List Char) : (boundedRe o).length = o.length + 2 := by
  simp [boundedRe]

theorem matchHere_boundedRe_nondelim (o : List Char) (c : Char) (cs : List Char)
    (hc : isDelim c = false) : matchHere (boundedRe o) (c :: cs) = false := by
  cases h : matchHere (boundedRe o) (c :: cs) with
  | false => rfl
  | true =>
    obtain ⟨d1, d2, post, h1, _, heq⟩ := (matchHere_boundedRe o _).1 h
    simp only [List.cons.injEq] at heq
    rw [heq.1, h1] at hc
    exact Bool.noConfusion hc

/-- At a boundary character the pattern matches exactly when the value that
follows is the name and is itself followed by a boundary character. -/
theorem matchHere_boundedRe_seg (o : List Char) (d1 : Char) (f1 : List Char)
    (rest : List (Char × List Char)) (ho : DelimFree o) (h1 : isDelim d1 = true)
    (hf : DelimFree f1) (hw : WellFormed rest) :
    matchHere (boundedRe o) (d1 :: (f1 ++ flatSegs rest)) = true ↔ f1 = o ∧ rest ≠ [] := by
  rw [matchHere_boundedRe]
  constructor
  · rintro ⟨d1', d2, post, _, h2, heq⟩
    simp only [List.cons.injEq] at heq
    obtain ⟨hfo, hx⟩ := value_prefix_unique f1 o _ post d2 hf ho h2 (flatSegs_head rest hw) heq.2
    refine ⟨hfo, ?_⟩
    rintro rfl
    simp [flatSegs] at hx
  · rintro ⟨rfl, hne⟩
    cases rest with
    | nil => exact absurd rfl hne
    | cons p r =>
      obtain ⟨d2, f2⟩ := p
      exact ⟨d1, d2, f2 ++ flatSegs r, h1, (hw (d2, f2) (by simp)).1, rfl⟩

theorem rewriteLine_eq (o t line : List Char) :
    rewriteLine o t line =
      replaceAllAux (boundedRe o)
        (fun s => replaceAllFunc (o.map Atom.lit) (fun _ => t) s) 0 line := by
  rw [rewriteLine, replaceAllFunc, if_neg (boundedRe_ne_nil o)]

theorem rewriteLine_value_append (o t f rest : List Char) (hf : DelimFree f) :
    rewriteLine o t (f ++ rest) = f ++ rewriteLine o t rest := by
  induction f with
  | nil => rfl
  | cons c cs ih =>
    have hc : isDelim c = false := hf c (by simp)
    have ih' := ih (fun x hx => hf x (by simp [hx]))
    rw [rewriteLine_eq] at ih' ⊢
    rw [List.cons_append, replaceAllAux_nomatch _ _ _ _ (matchHere_boundedRe_nondelim o c _ hc),
      ih', rewriteLine_eq, List.cons_append]

theorem rewriteLine_nil (o t : List Char) : rewriteLine o t [] = [] := by
  rw [rewriteLine_eq]; rfl

/-- The rewrite of a line, read on its values: `rwSegs`. -/
theorem rewriteLine_flatSegs (o t : List Char) (hne : o ≠ []) (ho : DelimFree o)
    (segs : List (Char × List Char)) (hw : WellFormed segs) :
    rewriteLine o t (flatSegs segs) = flatSegs (rwSegs o t segs) := by
  induction segs using rwSegs.induct o t with
  | case1 => exact rewriteLine_nil o t
  | case2 p =>
    obtain ⟨d, f⟩ := p
    have hp := hw (d, f) (by simp)
    have hm : matchHere (boundedRe o) (d :: (f ++ flatSegs [])) = false := by
      cases h : matchHere (boundedRe o) (d :: (f ++ flatSegs [])) with
      | false => rfl
      | true =>
        have := (matchHere_boundedRe_seg o d f [] ho hp.1 hp.2 (by intro p hp; cases hp)).1 h
        exact absurd rfl this.2
    have hflat : flatSegs [(d, f)] = d :: (f ++ flatSegs []) := rfl
    rw [rwSegs, hflat, rewriteLine_eq, replaceAllAux_nomatch _ _ _ _ hm, ← rewriteLine_eq,
      rewriteLine_value_append o t f _ hp.2]
    simp [flatSegs, rewriteLine_nil]
  | case3 d1 d2 f2 rest ih =>
    have hp1 := hw (d1, o) (by simp)
    have hp2 := hw (d2, f2) (by simp)
    have hwr : WellFormed rest := fun p hp => hw p (by simp [hp])
    have hw2 : WellFormed ((d2, f2) :: rest) := fun p hp => hw p (List.mem_cons_of_mem _ hp)
    have hm : matchHere (boundedRe o) (d1 :: (o ++ flatSegs ((d2, f2) :: rest))) = true :=
      (matchHere_boundedRe_seg o d1 o _ ho hp1.1 hp1.2 hw2).2 ⟨rfl, by simp⟩
    have hflat : flatSegs ((d1, o) :: (d2, f2) :: rest) =
        (d1 :: (o ++ [d2])) ++ (f2 ++ flatSegs rest) := by
      simp [flatSegs]
    have hlen : (boundedRe o).length = (d1 :: (o ++ [d2])).length := by
      simp [boundedRe_length]
    have hm' : matchHere (boundedRe o) ((d1 :: (o ++ [d2])) ++ (f2 ++ flatSegs rest)) = true := by
      rw [← hflat]; exact hm
    rw [rwSegs, if_pos rfl, hflat, rewriteLine_eq,
      replaceAllAux_match _ _ _ (boundedRe_ne_nil o) (by simp) hm',
      hlen, List.take_left', List.drop_left', ← rewriteLine_eq,
      rewriteLine_value_append o t f2 _ hp2.2, ih hwr,
      inner_replace_segment o t d1 d2 hne ho hp1.1 hp2.1]
    · simp [flatSegs]
    · rfl
    · rfl
  | case4 d1 f1 d2 f2 rest hf1 ih =>
    have hp1 := hw (d1, f1) (by simp)
    have hw2 : WellFormed ((d2, f2) :: rest) := fun p hp => hw p (List.mem_cons_of_mem _ hp)
    have hm : matchHere (boundedRe o) (d1 :: (f1 ++ flatSegs ((d2, f2) :: rest))) = false := by
      cases h : matchHere (boundedRe o) (d1 :: (f1 ++ flatSegs ((d2, f2) :: rest))) with
      | false => rfl
      | true =>
        exact absurd ((matchHere_boundedRe_seg o d1 f1 _ ho hp1.1 hp1.2 hw2).1 h).1 hf1
    have hflat : flatSegs ((d1, f1) :: (d2, f2) :: rest) =
        d1 :: (f1 ++ flatSegs ((d2, f2) :: rest)) := rfl
    rw [rwSegs, if_neg hf1, hflat, rewriteLine_eq, replaceAllAux_nomatch _ _ _ _ hm,
      ← rewriteLine_eq, rewriteLine_value_append o t f1 _ hp1.2, ih hw2]
    rfl

theorem toFields_delimFree (s : List Char) : DelimFree (toFields s).1 := by
  induction s with
  | nil => intro c hc; cases hc
  | cons c cs ih =>
    rw [toFields]
    split
    · intro x hx; cases hx
    · rename_i hc
      intro x hx
      rcases List.mem_cons.1 hx with rfl | h
      · simpa using hc
      · exact ih x h

theorem toFields_wellFormed (s : List Char) : WellFormed (toFields s).2 := by
  induction s with
  | nil => intro p hp; cases hp
  | cons c cs ih =>
    rw [toFields]
    split
    · rename_i hc
      intro p hp
      rcases List.mem_cons.1 hp with rfl | h
      · exact ⟨hc, toFields_delimFree cs⟩
      · exact ih p h
    · exact ih

/-- Cutting a line at its boundary characters loses nothing. -/
theorem flat_toFields (s : List Char) :
    (toFields s).1 ++ flatSegs (toFields s).2 = s := by
  induction s with
  | nil => rfl
  | cons c cs ih =>
    rw [toFields]
    split
    · simp only [List.nil_append, flatSegs, ih]
    · simp only [List.cons_append, ih]

theorem toFields_flatSegs (segs : List (Char × List Char)) (hw : WellFormed segs) :
    toFields (flatSegs segs) = ([], segs) ∧
      ∀ f0, DelimFree f0 → toFields (f0 ++ flatSegs segs) = (f0, segs) := by
  induction segs with
  | nil =>
    refine ⟨rfl, ?_⟩
    intro f0 hf0
    induction f0 with
    | nil => rfl
    | cons c cs ih =>
      have hc : isDelim c = false := hf0 c (by simp)
      have := ih (fun x hx => hf0 x (by simp [hx]))
      simp only [flatSegs, List.append_nil] at this ⊢
      rw [toFields, if_neg (by simp [hc]), this]
  | cons p rest ih =>
    obtain ⟨d, f⟩ := p
    have hp := hw (d, f) (by simp)
    have hwr : WellFormed rest := fun q hq => hw q (List.mem_cons_of_mem _ hq)
    have hrest := (ih hwr).2 f hp.2
    have h1 : toFields (flatSegs ((d, f) :: rest)) = ([], (d, f) :: rest) := by
      rw [flatSegs, toFields, if_pos hp.1, hrest]
    refine ⟨h1, ?_⟩
    intro f0 hf0
    induction f0 with
    | nil => exact h1
    | cons c cs ih0 =>
      have hc : isDelim c = false := hf0 c (by simp)
      have := ih0 (fun x hx => hf0 x (by simp [hx]))
      rw [List.cons_append, toFields, if_neg (by simp [hc]), this]

theorem containsBounded_value_append (o f rest : List Char) (hf : DelimFree f) :
    containsBounded o (f ++ rest) = containsBounded o rest := by
  induction f with
  | nil => rfl
  | cons c cs ih =>
    have hc : isDelim c = false := hf c (by simp)
    rw [List.cons_append, containsBounded, boundedHere_eq_matchHere,
      matchHere_boundedRe_nondelim o c _ hc, Bool.false_or,
      ih (fun x hx => hf x (by simp [hx]))]

theorem containsBounded_nil (o : List Char) : containsBounded o [] = false := rfl

theorem containsBounded_flatSegs (o : List Char) (ho : DelimFree o)
    (segs : List (Char × List Char)) (hw : WellFormed segs) :
    containsBounded o (flatSegs segs) = anyInterior o segs := by
  induction segs using anyInterior.induct o with
  | case1 => rfl
  | case2 p =>
    obtain ⟨d, f⟩ := p
    have hp := hw (d, f) (by simp)
    have hm : matchHere (boundedRe o) (d :: (f ++ flatSegs [])) = false := by
      cases h : matchHere (boundedRe o) (d :: (f ++ flatSegs [])) with
      | false => rfl
      | true =>
        have := (matchHere_boundedRe_seg o d f [] ho hp.1 hp.2 (by intro p hp; cases hp)).1 h
        exact absurd rfl this.2
    have hflat : flatSegs [(d, f)] = d :: (f ++ flatSegs []) := rfl
    rw [hflat, containsBounded, boundedHere_eq_matchHere, hm,
      containsBounded_value_append o f _ hp.2]
    rfl
  | case3 d1 f1 d2 f2 rest ih =>
    have hp1 := hw (d1, f1) (by simp)
    have hw2 : WellFormed ((d2, f2) :: rest) := fun p hp => hw p (List.mem_cons_of_mem _ hp)
    have hflat : flatSegs ((d1, f1) :: (d2, f2) :: rest) =
        d1 :: (f1 ++ flatSegs ((d2, f2) :: rest)) := rfl
    have hm : matchHere (boundedRe o) (d1 :: (f1 ++ flatSegs ((d2, f2) :: rest))) =
        decide (f1 = o) := by
      rw [Bool.eq_iff_iff, matchHere_boundedRe_seg o d1 f1 _ ho hp1.1 hp1.2 hw2]
      simp
    rw [hflat, containsBounded, boundedHere_eq_matchHere, hm,
      containsBounded_value_append o f1 _ hp1.2, ih hw2, anyInterior]

theorem rwSegs_of_not_anyInterior (o t : List Char) (segs : List (Char × List Char))
    (h : anyInterior o segs = false) : rwSegs o t segs = segs := by
  induction segs using rwSegs.induct o t with
  | case1 => rfl
  | case2 p => rfl
  | case3 d1 d2 f2 rest ih => simp [anyInterior] at h
  | case4 d1 f1 d2 f2 rest hf1 ih =>
    simp only [anyInterior, Bool.or_eq_false_iff] at h
    rw [rwSegs, if_neg hf1, ih h.2]

/-- The content emitted for a line, read on its values. -/
theorem emitLine_fields (o t line : List Char) (hne : o ≠ []) (ho : DelimFree o) :
    emitLine o t line = (toFields line).1 ++ flatSegs (rwSegs o t (toFields line).2) := by
  have hflat := flat_toFields line
  have hcb : containsBounded o line = anyInterior o (toFields line).2 := by
    conv_lhs => rw [← hflat]
    rw [containsBounded_value_append o _ _ (toFields_delimFree line),
      containsBounded_flatSegs o ho _ (toFields_wellFormed line)]
  rw [emitLine, hcb]
  cases h : anyInterior o (toFields line).2 with
  | false =>
    rw [rwSegs_of_not_anyInterior o t _ h, hflat]
    simp
  | true =>
    simp only [if_true]
    conv_lhs => rw [← hflat]
    rw [rewriteLine_value_append o t _ _ (toFields_delimFree line),
      rewriteLine_flatSegs o t hne ho _ (toFields_wellFormed line)]

theorem rwSegs_map_fst (o t : List Char) (segs : List (Char × List Char)) :
    (rwSegs o t segs).map Prod.fst = segs.map Prod.fst := by
  induction segs using rwSegs.induct o t with
  | case1 => rfl
  | case2 p => rfl
  | case3 d1 d2 f2 rest ih => simp [rwSegs, ih]
  | case4 d1 f1 d2 f2 rest hf1 ih => rw [rwSegs, if_neg hf1, List.map_cons, ih]; rfl

theorem rwSegs_length (o t : List Char) (segs : List (Char × List Char)) :
    (rwSegs o t segs).length = segs.length := by
  have := congrArg List.length (rwSegs_map_fst o t segs)
  simpa using this

theorem rwSegs_wellFormed (o t : List Char) (ht : DelimFree t)
    (segs : List (Char × List Char)) (hw : WellFormed segs) :
    WellFormed (rwSegs o t segs) := by
  induction segs using rwSegs.induct o t with
  | case1 => exact hw
  | case2 p => exact hw
  | case3 d1 d2 f2 rest ih =>
    have hp1 := hw (d1, o) (by simp)
    have hp2 := hw (d2, f2) (by simp)
    have hwr : WellFormed rest := fun p hp => hw p (by simp [hp])
    rw [rwSegs, if_pos rfl]
    intro p hp
    rcases List.mem_cons.1 hp with rfl | hp
    · exact ⟨hp1.1, ht⟩
    · rcases List.mem_cons.1 hp with rfl | hp
      · exact hp2
      · exact ih hwr p hp
  | case4 d1 f1 d2 f2 rest hf1 ih =>
    have hp1 := hw (d1, f1) (by simp)
    have hw2 : WellFormed ((d2, f2) :: rest) := fun p hp => hw p (List.mem_cons_of_mem _ hp)
    rw [rwSegs, if_neg hf1]
    intro p hp
    rcases List.mem_cons.1 hp with rfl | hp
    · exact hp1
    · exact ih hw2 p hp

/-- Position by position, `rwSegs` leaves a pair alone or turns a value equal
to the name, with a pair after it, into the new name. -/
theorem rwSegs_getElem? (o t : List Char) (segs : List (Char × List Char)) (i : Nat) :
    (rwSegs o t segs)[i]? = segs[i]? ∨
      ∃ d, segs[i]? = some (d, o) ∧ (rwSegs o t segs)[i]? = some (d, t) ∧
        i + 1 < segs.length := by
  induction segs using rwSegs.induct o t generalizing i with
  | case1 => left; rfl
  | case2 p => left; rfl
  | case3 d1 d2 f2 rest ih =>
    rw [rwSegs, if_pos rfl]
    match i with
    | 0 => right; exact ⟨d1, by simp, by simp, by simp⟩
    | 1 => left; simp
    | j + 2 =>
      rcases ih j with h | ⟨d, h1, h2, h3⟩
      · left; simpa using h
      · right; exact ⟨d, by simpa using h1, by simpa using h2, by simp; omega⟩
  | case4 d1 f1 d2 f2 rest hf1 ih =>
    rw [rwSegs, if_neg hf1]
    match i with
    | 0 => left; simp
    | j + 1 =>
      rcases ih j with h | ⟨d, h1, h2, h3⟩
      · left; simpa using h
      · right; exact ⟨d, by simpa using h1, by simpa using h2, by simp at h3 ⊢; omega⟩

theorem not_mem_dollar_of_metaFree (t : List Char) (ht : MetaFree t) : '$' ∉ t := by
  intro h
  have := ht '$' h
  revert this
  decide

theorem toFields_emitLine (o t line : List Char) (ho : PlainName o) (ht : DelimFree t) :
    toFields (emitLine o t line) = ((toFields line).1, rwSegs o t (toFields line).2) := by
  rw [emitLine_fields o t line ho.1 ho.2.2]
  exact (toFields_flatSegs _ (rwSegs_wellFormed o t ht _ (toFields_wellFormed line))).2 _
    (toFields_delimFree line)

/-! ### Replacing every bounded occurrence -/

theorem replaceEveryBounded_skip (o t : List Char) (j : Nat) (cs : List Char) :
    replaceEveryBounded o t j cs = replaceEveryBounded o t 0 (cs.drop j) := by
  induction cs generalizing j with
  | nil => cases j <;> simp [replaceEveryBounded]
  | cons c cs ih =>
    cases j with
    | zero => simp
    | succ k => rw [replaceEveryBounded, ih k, List.drop_succ_cons]

theorem replaceEveryBounded_value_append (o t f rest : List Char) (hf : DelimFree f) :
    replaceEveryBounded o t 0 (f ++ rest) = f ++ replaceEveryBounded o t 0 rest := by
  induction f with
  | nil => rfl
  | cons c cs ih =>
    have hc : isDelim c = false := hf c (by simp)
    have hb : boundedHere o (c :: (cs ++ rest)) = false := by
      rw [boundedHere_eq_matchHere]; exact matchHere_boundedRe_nondelim o c _ hc
    rw [List.cons_append, replaceEveryBounded, if_neg (by simp [hb]),
      ih (fun x hx => hf x (by simp [hx])), List.cons_append]

theorem replaceEveryBounded_flatSegs (o t : List Char) (ho : DelimFree o)
    (segs : List (Char × List Char)) (hw : WellFormed segs) :
    replaceEveryBounded o t 0 (flatSegs segs) = flatSegs (rwAll o t segs) := by
  induction segs using rwAll.induct o t with
  | case1 => rfl
  | case2 p =>
    obtain ⟨d, f⟩ := p
    have hp := hw (d, f) (by simp)
    have hm : boundedHere o (d :: (f ++ flatSegs [])) = false := by
      rw [boundedHere_eq_matchHere]
      cases h : matchHere (boundedRe o) (d :: (f ++ flatSegs [])) with
      | false => rfl
      | true =>
        have := (matchHere_boundedRe_seg o d f [] ho hp.1 hp.2 (by intro p hp; cases hp)).1 h
        exact absurd rfl this.2
    have hflat : flatSegs [(d, f)] = d :: (f ++ flatSegs []) := rfl
    rw [rwAll, hflat, replaceEveryBounded, if_neg (by simp [hm]),
      replaceEveryBounded_value_append o t f _ hp.2]
    rfl
  | case3 d1 f1 d2 f2 rest ih =>
    have hp1 := hw (d1, f1) (by simp)
    have hw2 : WellFormed ((d2, f2) :: rest) := fun p hp => hw p (List.mem_cons_of_mem _ hp)
    have hflat : flatSegs ((d1, f1) :: (d2, f2) :: rest) =
        d1 :: (f1 ++ flatSegs ((d2, f2) :: rest)) := rfl
    have hm : boundedHere o (d1 :: (f1 ++ flatSegs ((d2, f2) :: rest))) = true ↔ f1 = o := by
      rw [boundedHere_eq_matchHere, matchHere_boundedRe_seg o d1 f1 _ ho hp1.1 hp1.2 hw2]
      simp
    rw [rwAll, hflat, replaceEveryBounded]
    by_cases hf1 : f1 = o
    · rw [if_pos (hm.2 hf1), if_pos hf1, replaceEveryBounded_skip, hf1, List.drop_left, ih hw2]
      rfl
    · rw [if_neg (fun h => hf1 (hm.1 h)), if_neg hf1,
        replaceEveryBounded_value_append o t f1 _ hp1.2, ih hw2]
      rfl

theorem adjInterior_tail (o : List Char) (p : Char × List Char)
    (segs : List (Char × List Char)) (h : adjInterior o (p :: segs) = false) :
    adjInterior o segs = false := by
  match segs with
  | [] => rfl
  | [_] => rfl
  | q :: r :: rest =>
    obtain ⟨d1, f1⟩ := p
    obtain ⟨d2, f2⟩ := q
    obtain ⟨d3, f3⟩ := r
    simp only [adjInterior, Bool.or_eq_false_iff] at h
    exact h.2

theorem rwSegs_eq_rwAll (o t : List Char) (segs : List (Char × List Char))
    (h : adjInterior o segs = false) : rwSegs o t segs = rwAll o t segs := by
  induction segs using rwSegs.induct o t with
  | case1 => rfl
  | case2 p => rfl
  | case3 d1 d2 f2 rest ih =>
    have hrest : adjInterior o rest = false :=
      adjInterior_tail o _ _ (adjInterior_tail o _ _ h)
    rw [rwSegs, if_pos rfl, rwAll, if_pos rfl, ih hrest]
    match rest, h with
    | [], _ => rfl
    | (d3, f3) :: r, h =>
      simp only [adjInterior, decide_True, Bool.true_and, Bool.or_eq_false_iff,
        decide_eq_false_iff_not] at h
      rw [rwAll, if_neg h.1]
  | case4 d1 f1 d2 f2 rest hf1 ih =>
    rw [rwSegs, if_neg hf1, rwAll, if_neg hf1, ih (adjInterior_tail o _ _ h)]

theorem flatSegs_append (s1 s2 : List (Char × List Char)) :
    flatSegs (s1 ++ s2) = flatSegs s1 ++ flatSegs s2 := by
  induction s1 with
  | nil => rfl
  | cons p rest ih =>
    obtain ⟨d, f⟩ := p
    simp [flatSegs, ih]

theorem NoSharedDelim_suffix (o pre line : List Char) (h : NoSharedDelim o (pre ++ line)) :
    NoSharedDelim o line := by
  rintro ⟨p, d1, d2, d3, post, h1, h2, h3, rfl⟩
  exact h ⟨pre ++ p, d1, d2, d3, post, h1, h2, h3, by simp⟩

theorem adjInterior_of_noShared (o : List Char) (segs : List (Char × List Char))
    (hw : WellFormed segs) (h : NoSharedDelim o (flatSegs segs)) :
    adjInterior o segs = false := by
  induction segs with
  | nil => rfl
  | cons p rest ih =>
    have hwr : WellFormed rest := fun q hq => hw q (List.mem_cons_of_mem _ hq)
    obtain ⟨d1, f1⟩ := p
    have hrest : adjInterior o rest = false := by
      apply ih hwr
      have hflat : flatSegs ((d1, f1) :: rest) = (d1 :: f1) ++ flatSegs rest := by
        simp [flatSegs]
      rw [hflat] at h
      exact NoSharedDelim_suffix o _ _ h
    match rest, hw, h, hrest with
    | [], _, _, _ => rfl
    | [_], _, _, _ => rfl
    | (d2, f2) :: (d3, f3) :: r, hw, h, hrest =>
      simp only [adjInterior, Bool.or_eq_false_iff, hrest, and_true, Bool.and_eq_false_iff,
        decide_eq_false_iff_not]
      by_contra hcon
      have hcon' : f1 = o ∧ f2 = o := by
        constructor
        · by_contra h1; exact hcon (Or.inl h1)
        · by_contra h2; exact hcon (Or.inr h2)
      apply h
      refine ⟨[], d1, d2, d3, f3 ++ flatSegs r, (hw (d1, f1) (by simp)).1,
        (hw (d2, f2) (by simp)).1, (hw (d3, f3) (by simp)).1, ?_⟩
      simp [flatSegs, hcon'.1, hcon'.2]

theorem emitLine_eq_replaceEveryBounded (o t line : List Char) (ho : PlainName o)
    (hns : NoSharedDelim o line) :
    emitLine o t line = replaceEveryBounded o t 0 line := by
  have hflat := flat_toFields line
  have hw := toFields_wellFormed line
  have hadj : adjInterior o (toFields line).2 = false := by
    apply adjInterior_of_noShared o _ hw
    rw [← hflat] at hns
    exact NoSharedDelim_suffix o _ _ hns
  rw [emitLine_fields o t line ho.1 ho.2.2, rwSegs_eq_rwAll o t _ hadj,
    ← replaceEveryBounded_flatSegs o t ho.2.2 _ hw,
    ← replaceEveryBounded_value_append o t _ _ (toFields_delimFree line), hflat]

theorem toFields_append (pre rest : List Char) (h : (toFields rest).1 = []) :
    toFields (pre ++ rest) = ((toFields pre).1, (toFields pre).2 ++ (toFields rest).2) := by
  induction pre with
  | nil =>
    rw [List.nil_append]
    exact Prod.ext h rfl
  | cons c cs ih =>
    rw [List.cons_append, toFields, ih, toFields]
    split <;> rfl

theorem toFields_delim_cons (d : Char) (rest : List Char) (hd : isDelim d = true) :
    toFields (d :: rest) = ([], (d, (toFields rest).1) :: (toFields rest).2) := by
  rw [toFields, if_pos hd]

theorem toFields_value_append (f rest : List Char) (hf : DelimFree f) :
    toFields (f ++ rest) = (f ++ (toFields rest).1, (toFields rest).2) := by
  induction f with
  | nil => rfl
  | cons c cs ih =>
    have hc : isDelim c = false := hf c (by simp)
    rw [List.cons_append, toFields, if_neg (by simp [hc]),
      ih (fun x hx => hf x (by simp [hx]))]
    rfl

/-- The values of a line that reads `pre`, boundary, `o`, boundary, `post`. -/
theorem toFields_bounded (pre o post : List Char) (d1 d2 : Char) (ho : DelimFree o)
    (h1 : isDelim d1 = true) (h2 : isDelim d2 = true) :
    (toFields (pre ++ d1 :: (o ++ d2 :: post))).2 =
      (toFields pre).2 ++ (d1, o) :: (d2, (toFields post).1) :: (toFields post).2 := by
  have hin : toFields (d1 :: (o ++ d2 :: post)) =
      ([], (d1, o) :: (d2, (toFields post).1) :: (toFields post).2) := by
    rw [toFields_delim_cons d1 _ h1, toFields_value_append o _ ho, toFields_delim_cons d2 _ h2]
    simp
  rw [toFields_append pre _ (by rw [hin]), hin]

theorem adjInterior_append_left (o : List Char) (s1 s2 : List (Char × List Char))
    (h : adjInterior o s2 = true) : adjInterior o (s1 ++ s2) = true := by
  induction s1 with
  | nil => exact h
  | cons p rest ih =>
    cases hc : adjInterior o (p :: (rest ++ s2)) with
    | true => exact hc
    | false =>
      have := adjInterior_tail o p _ hc
      rw [ih] at this
      exact Bool.noConfusion this

theorem noSharedDelim_iff (o line : List Char) (ho : DelimFree o) :
    NoSharedDelim o line ↔ adjInterior o (toFields line).2 = false := by
  constructor
  · intro h
    apply adjInterior_of_noShared o _ (toFields_wellFormed line)
    rw [← flat_toFields line] at h
    exact NoSharedDelim_suffix o _ _ h
  · rintro h ⟨pre, d1, d2, d3, post, h1, h2, h3, rfl⟩
    have hsegs := toFields_bounded pre o (o ++ d3 :: post) d1 d2 ho h1 h2
    rw [toFields_value_append o _ ho, toFields_delim_cons d3 _ h3] at hsegs
    rw [hsegs, adjInterior_append_left] at h
    · exact Bool.noConfusion h
    · simp [adjInterior]

theorem containsBounded_eq_anyInterior (o line : List Char) (ho : DelimFree o) :
    containsBounded o line = anyInterior o (toFields line).2 := by
  conv_lhs => rw [← flat_toFields line]
  rw [containsBounded_value_append o _ _ (toFields_delimFree line),
    containsBounded_flatSegs o ho _ (toFields_wellFormed line)]

theorem rwAll_head (a b : List Char) (d : Char) (f : List Char)
    (s : List (Char × List Char)) :
    ∃ f' X, rwAll a b ((d, f) :: s) = (d, f') :: X := by
  cases s with
  | nil => exact ⟨f, [], rfl⟩
  | cons q r =>
    obtain ⟨d2, f2⟩ := q
    exact ⟨_, _, rfl⟩

theorem rwAll_append (a b : List Char) (s1 : List (Char × List Char))
    (p : Char × List Char) (s2 : List (Char × List Char)) :
    rwAll a b (s1 ++ p :: s2) =
      s1.map (fun q => (q.1, if q.2 = a then b else q.2)) ++ rwAll a b (p :: s2) := by
  induction s1 with
  | nil => rfl
  | cons q rest ih =>
    obtain ⟨d1, f1⟩ := q
    cases rest with
    | nil =>
      obtain ⟨d2, f2⟩ := p
      simp [rwAll]
    | cons r rest' =>
      obtain ⟨d2, f2⟩ := r
      rw [List.cons_append, List.cons_append, rwAll, ← List.cons_append, ih]
      simp

theorem anyInterior_rwAll (a b : List Char) (hab : a ≠ b)
    (segs : List (Char × List Char)) : anyInterior a (rwAll a b segs) = false := by
  induction segs using rwAll.induct a b with
  | case1 => rfl
  | case2 p => rfl
  | case3 d1 f1 d2 f2 rest ih =>
    obtain ⟨f', X, hX⟩ := rwAll_head a b d2 f2 rest
    rw [rwAll]
    rw [hX] at ih ⊢
    rw [anyInterior, ih, Bool.or_false, decide_eq_false_iff_not]
    split
    · exact fun h => hab h.symm
    · assumption

theorem emitLine_not_bounded (a b l : List Char) (ha : PlainName a) (hb : DelimFree b)
    (hab : a ≠ b) (hns : NoSharedDelim a l) :
    containsBounded a (emitLine a b l) = false := by
  have hadj := (noSharedDelim_iff a _ ha.2.2).1 hns
  rw [containsBounded_eq_anyInterior a _ ha.2.2, toFields_emitLine a b l ha hb,
    rwSegs_eq_rwAll a b _ hadj, anyInterior_rwAll a b hab]

/-! ### Text lines of a store written line by line -/

theorem chomp_append_cr (e : List Char) : chomp (e ++ ['\r']) = e := by
  simp [chomp]

theorem textLines_cons_crlf (e rest : List Char) (he : '\n' ∉ e) :
    textLines (e ++ crlf ++ rest) = e :: textLines rest := by
  have hsplit : e ++ crlf ++ rest = (e ++ ['\r']) ++ '\n' :: rest := by simp [crlf]
  have hnl : '\n' ∉ e ++ ['\r'] := by
    intro h
    rcases List.mem_append.1 h with h | h
    · exact he h
    · revert h; decide
  rw [hsplit, textLines, textLinesAux_terminated [] _ rest hnl, List.nil_append,
    chomp_append_cr]
  rfl

/-- A store written as lines followed by CR LF reads back as those lines. -/
theorem textLines_flatMap_crlf (es : List (List Char)) (hes : ∀ e ∈ es, '\n' ∉ e) :
    textLines (es.flatMap (fun e => e ++ crlf)) = es := by
  induction es with
  | nil => rfl
  | cons e rest ih =>
    rw [List.flatMap_cons, textLines_cons_crlf e _ (hes e (by simp)),
      ih (fun x hx => hes x (List.mem_cons_of_mem _ hx))]

theorem chomp_subset (l : List Char) (c : Char) (h : c ∈ chomp l) : c ∈ l := by
  unfold chomp at h
  split at h
  · exact List.mem_of_mem_dropLast h
  · exact h

theorem textLinesAux_no_newline (cur data : List Char) (hcur : '\n' ∉ cur) :
    ∀ l ∈ textLinesAux cur data, '\n' ∉ l := by
  induction data generalizing cur with
  | nil =>
    intro l hl
    rw [textLinesAux] at hl
    split at hl
    · cases hl
    · rw [List.mem_singleton.1 hl]; exact hcur
  | cons c cs ih =>
    intro l hl
    rw [textLinesAux] at hl
    split at hl
    · rcases List.mem_cons.1 hl with rfl | h
      · exact fun hm => hcur (chomp_subset _ _ hm)
      · exact ih [] (by simp) l h
    · rename_i hc
      apply ih (cur ++ [c]) _ l hl
      intro hm
      rcases List.mem_append.1 hm with h | h
      · exact hcur h
      · exact hc (List.mem_singleton.1 h).symm

theorem textLines_no_newline (data : List Char) : ∀ l ∈ textLines data, '\n' ∉ l :=
  textLinesAux_no_newline [] data (by simp)

theorem mem_flatSegs_rwSegs (o t : List Char) (c : Char)
    (segs : List (Char × List Char)) (h : c ∈ flatSegs (rwSegs o t segs)) :
    c ∈ flatSegs segs ∨ c ∈ t := by
  induction segs using rwSegs.induct o t with
  | case1 => exact Or.inl h
  | case2 p => exact Or.inl h
  | case3 d1 d2 f2 rest ih =>
    rw [rwSegs, if_pos rfl] at h
    simp only [flatSegs, List.mem_cons, List.mem_append] at h ⊢
    rcases h with h | h | h | h | h
    · exact Or.inl (Or.inl h)
    · exact Or.inr h
    · exact Or.inl (Or.inr (Or.inr (Or.inl h)))
    · exact Or.inl (Or.inr (Or.inr (Or.inr (Or.inl h))))
    · rcases ih h with h' | h'
      · exact Or.inl (Or.inr (Or.inr (Or.inr (Or.inr h'))))
      · exact Or.inr h'
  | case4 d1 f1 d2 f2 rest hf1 ih =>
    rw [rwSegs, if_neg hf1] at h
    have hflat : ∀ X, flatSegs ((d1, f1) :: X) = d1 :: (f1 ++ flatSegs X) := fun _ => rfl
    rw [hflat] at h ⊢
    simp only [List.mem_cons, List.mem_append] at h ⊢
    rcases h with h | h | h
    · exact Or.inl (Or.inl h)
    · exact Or.inl (Or.inr (Or.inl h))
    · rcases ih h with h' | h'
      · exact Or.inl (Or.inr (Or.inr h'))
      · exact Or.inr h'

theorem emitLine_no_newline (o t l : List Char) (ho : PlainName o)
    (hl : '\n' ∉ l) (ht : '\n' ∉ t) : '\n' ∉ emitLine o t l := by
  rw [emitLine_fields o t l ho.1 ho.2.2]
  intro h
  have hflat := flat_toFields l
  rcases List.mem_append.1 h with h | h
  · exact hl (by rw [← hflat]; exact List.mem_append_left _ h)
  · rcases mem_flatSegs_rwSegs o t _ _ h with h' | h'
    · exact hl (by rw [← hflat]; exact List.mem_append_right _ h')
    · exact ht h'

/-- The lines of the store written by a rename pass are the emitted lines. -/
theorem textLines_rewritten (o t : List Char) (ho : PlainName o) (ht : '\n' ∉ t)
    (data : List Char) :
    textLines ((textLines data).flatMap (fun l => emitLine o t l ++ crlf)) =
      (textLines data).map (emitLine o t) := by
  have h := textLines_flatMap_crlf ((textLines data).map (emitLine o t)) (by
    intro e he
    obtain ⟨l, hl, rfl⟩ := List.mem_map.1 he
    exact emitLine_no_newline o t l ho (textLines_no_newline data l hl) ht)
  rw [List.flatMap_map] at h
  exact h

/-! ### Renaming back -/

theorem rwSegs_head (a b : List Char) (d : Char) (f : List Char)
    (s : List (Char × List Char)) :
    ∃ f' X, rwSegs a b ((d, f) :: s) = (d, f') :: X := by
  cases s with
  | nil => exact ⟨f, [], rfl⟩
  | cons q r =>
    obtain ⟨d2, f2⟩ := q
    rw [rwSegs]
    split
    · exact ⟨_, _, rfl⟩
    · exact ⟨_, _, rfl⟩

theorem anyInterior_tail (a : List Char) (p : Char × List Char)
    (segs : List (Char × List Char)) (h : anyInterior a (p :: segs) = false) :
    anyInterior a segs = false := by
  match segs with
  | [] => rfl
  | q :: rest =>
    obtain ⟨d1, f1⟩ := p
    obtain ⟨d2, f2⟩ := q
    simp only [anyInterior, Bool.or_eq_false_iff] at h
    exact h.2

/-- Renaming `a` to `b` and back restores the values when no value with a
boundary character on both sides was `b` to begin with. -/
theorem rwSegs_round_trip (a b : List Char) (segs : List (Char × List Char))
    (h : anyInterior b segs = false) : rwSegs b a (rwSegs a b segs) = segs := by
  induction segs using rwSegs.induct a b with
  | case1 => rfl
  | case2 p => rfl
  | case3 d1 d2 f2 rest ih =>
    have hrest : anyInterior b rest = false :=
      anyInterior_tail b _ _ (anyInterior_tail b _ _ h)
    rw [rwSegs, if_pos rfl, rwSegs, if_pos rfl, ih hrest]
  | case4 d1 f1 d2 f2 rest hf1 ih =>
    have h2 := anyInterior_tail b _ _ h
    have hf1b : f1 ≠ b := by
      simp only [anyInterior, Bool.or_eq_false_iff, decide_eq_false_iff_not] at h
      exact h.1
    obtain ⟨f', X, hX⟩ := rwSegs_head a b d2 f2 rest
    rw [rwSegs, if_neg hf1]
    rw [hX] at ih ⊢
    rw [rwSegs, if_neg hf1b, ih h2]

theorem anyInterior_rwSegs (a b : List Char) (segs : List (Char × List Char))
    (h : anyInterior a segs = true) : anyInterior b (rwSegs a b segs) = true := by
  induction segs using rwSegs.induct a b with
  | case1 => simp [anyInterior] at h
  | case2 p => simp [anyInterior] at h
  | case3 d1 d2 f2 rest ih =>
    rw [rwSegs, if_pos rfl]
    simp [anyInterior]
  | case4 d1 f1 d2 f2 rest hf1 ih =>
    have h2 : anyInterior a ((d2, f2) :: rest) = true := by
      simpa [anyInterior, hf1] using h
    obtain ⟨f', X, hX⟩ := rwSegs_head a b d2 f2 rest
    rw [rwSegs, if_neg hf1]
    rw [hX] at ih ⊢
    rw [anyInterior, ih h2, Bool.or_true]

theorem emitLine_round_trip (a b l : List Char) (ha : PlainName a) (hb : PlainName b)
    (hno : containsBounded b l = false) : emitLine b a (emitLine a b l) = l := by
  rw [containsBounded_eq_anyInterior b l hb.2.2] at hno
  rw [emitLine_fields b a _ hb.1 hb.2.2, toFields_emitLine a b l ha hb.2.2]
  simp only
  rw [rwSegs_round_trip a b _ hno, flat_toFields]

theorem emitLine_flagged (a b l : List Char) (ha : PlainName a) (hb : PlainName b)
    (h : containsBounded a l = true) : containsBounded b (emitLine a b l) = true := by
  rw [containsBounded_eq_anyInterior a l ha.2.2] at h
  rw [containsBounded_eq_anyInterior b _ hb.2.2, toFields_emitLine a b l ha hb.2.2]
  exact anyInterior_rwSegs a b _ h
/-! ### Well-formed text in the computed part of `regexp` -/

theorem map_sem_text (l : List Char) : (text l).map Sym.sem = l := by
  induction l with
  | nil => rfl
  | cons c cs ih =>
    have : (text (c :: cs)).map Sym.sem = c :: (text cs).map Sym.sem := rfl
    rw [this, ih]

theorem text_append (a b : List Char) : text (a ++ b) = text a ++ text b := by
  simp [text]

theorem text_cons (c : Char) (l : List Char) : text (c :: l) = Sym.rune c :: text l := rfl

theorem text_take (k : Nat) (l : List Char) : (text l).take k = text (l.take k) := by
  simp [text, List.map_take]

theorem decodePattern_text (p : List Char) : decodePattern (text p) = some p := by
  induction p with
  | nil => rfl
  | cons c cs ih =>
    rw [text_cons, decodePattern, ih]
    rfl

theorem compileS_text (p : List Char) : compileS (text p) = compile p := by
  simp [compileS, decodePattern_text]

theorem patternOf_text (o : List Char) : patternOf (text o) = text (boundedPattern o) := by
  simp [patternOf, boundedPattern, text]

theorem isClean_text (l : List Char) : isClean (text l) = true := by
  simp [isClean, text]

theorem replaceAllAuxS_text (re : List Atom) (repl : List Sym → List Sym)
    (f : List Char → List Char) (h : ∀ seg, repl (text seg) = text (f seg))
    (j : Nat) (l : List Char) :
    replaceAllAuxS re repl j (text l) = text (replaceAllAux re f j l) := by
  induction l generalizing j with
  | nil => cases j <;> rfl
  | cons c cs ih =>
    cases j with
    | succ k =>
      rw [text_cons, replaceAllAuxS, replaceAllAux, ih]
    | zero =>
      rw [text_cons, replaceAllAuxS, replaceAllAux, ← text_cons, map_sem_text, text_take, h,
        ih, ih]
      split
      · rw [text_append]
      · rfl

theorem replaceAllFuncS_text (re : List Atom) (repl : List Sym → List Sym)
    (f : List Char → List Char) (h : ∀ seg, repl (text seg) = text (f seg))
    (l : List Char) :
    replaceAllFuncS re repl (text l) = text (replaceAllFunc re f l) := by
  rw [replaceAllFuncS, replaceAllFunc]
  split
  · have h0 : repl [] = text (f []) := h []
    rw [text_append, h0]
    congr 1
    induction l with
    | nil => rfl
    | cons c cs ih =>
      rw [text_cons, List.flatMap_cons, List.flatMap_cons, ih, text_append, text_cons]
  · exact replaceAllAuxS_text re repl f h 0 l

theorem hasLiteralPrefix_boundedRe (o : List Char) : hasLiteralPrefix (boundedRe o) = false :=
  rfl

theorem compileS_patternOf (o : List Char) (ho : MetaFree o) :
    compileS (patternOf (text o)) = some (boundedRe o) := by
  rw [patternOf_text, compileS_text, compile_boundedPattern o ho]

theorem compileS_origin (o : List Char) (ho : MetaFree o) :
    compileS (text o) = some (o.map Atom.lit) := by
  rw [compileS_text, compile_lits o ho]

theorem goRegexp_valid_pattern (ext : RegexpLib) (o : List Char) (ho : MetaFree o) :
    (goRegexp ext).valid (patternOf (text o)) = true := by
  simp [goRegexp, compileS_patternOf o ho]

theorem goRegexp_valid_origin (ext : RegexpLib) (o : List Char) (ho : MetaFree o) :
    (goRegexp ext).valid (text o) = true := by
  simp [goRegexp, compileS_origin o ho]

/-- On the bounded pattern of a metacharacter-free value the match is decided
on the decoded characters of the line, whatever the line holds. -/
theorem goRegexp_isMatch_pattern (ext : RegexpLib) (o : List Char) (ho : MetaFree o)
    (s : List Sym) :
    (goRegexp ext).isMatch (patternOf (text o)) s = containsBounded o (s.map Sym.sem) := by
  simp [goRegexp, compileS_patternOf o ho, runeWise, hasLiteralPrefix_boundedRe,
    containsBounded_eq_search]

theorem goRegexp_replaceAllFunc_pattern (ext : RegexpLib) (o : List Char) (ho : MetaFree o)
    (s : List Sym) (f : List Sym → List Sym) :
    (goRegexp ext).replaceAllFunc (patternOf (text o)) s f =
      replaceAllFuncS (boundedRe o) f s := by
  simp [goRegexp, compileS_patternOf o ho, runeWise, hasLiteralPrefix_boundedRe]

theorem not_mem_text_dollar (t : List Char) (ht : '$' ∉ t) :
    (text t).contains (Sym.rune '$') = false := by
  rw [Bool.eq_false_iff]
  intro h
  simp only [text, List.contains_iff_exists_mem_beq, List.mem_map, beq_iff_eq] at h
  obtain ⟨x, ⟨c, hc, rfl⟩, hx⟩ := h
  exact ht (by rw [Sym.rune.inj hx]; exact hc)

theorem goRegexp_replaceAll_text (ext : RegexpLib) (o t seg : List Char) (ho : MetaFree o)
    (ht : '$' ∉ t) :
    (goRegexp ext).replaceAll (text o) (text seg) (text t) =
      text (replaceAllFunc (o.map Atom.lit) (fun _ => t) seg) := by
  simp only [goRegexp, compileS_origin o ho, runeWise, isClean_text, Bool.or_true,
    Bool.true_and, not_mem_text_dollar t ht, Bool.not_false, if_true]
  exact replaceAllFuncS_text _ _ _ (fun _ => rfl) seg

theorem regexpMatch_goRegexp (ext : RegexpLib) (o : List Char) (ho : MetaFree o)
    (s : List Sym) :
    regexpMatch (goRegexp ext) (patternOf (text o)) s = containsBounded o (s.map Sym.sem) := by
  rw [regexpMatch, goRegexp_valid_pattern ext o ho, goRegexp_isMatch_pattern ext o ho,
    Bool.true_and]

/-- The loop body on a line of well-formed text, for a metacharacter-free
origin and a target without `$`. -/
theorem processLine_text (ext : RegexpLib) (o t l : List Char) (ho : MetaFree o)
    (ht : '$' ∉ t) :
    processLine (goRegexp ext) (text o) (text t) (text l) =
      Except.ok (text (emitLine o t l) ++ text crlf, containsBounded o l) := by
  rw [processLine, regexpMatch_goRegexp ext o ho, map_sem_text]
  cases h : containsBounded o l with
  | false => simp [emitLine, h]
  | true =>
    simp only [if_true, goRegexp_valid_origin ext o ho, emitLine, h,
      goRegexp_replaceAllFunc_pattern ext o ho]
    rw [replaceAllFuncS_text (boundedRe o) _
      (fun s => replaceAllFunc (o.map Atom.lit) (fun _ => t) s)
      (fun seg => goRegexp_replaceAll_text ext o t seg ho ht)]
    rfl
/-! ### The scan loop, for every behaviour of `regexp` -/

theorem processLine_flag (lib : RegexpLib) (o t l bytes : List Sym) (fl : Bool)
    (h : processLine lib o t l = Except.ok (bytes, fl)) :
    regexpMatch lib (patternOf o) l = fl := by
  unfold processLine at h
  split at h
  · rename_i hm
    split at h
    · simp only [Except.ok.injEq, Prod.mk.injEq] at h
      rw [hm, ← h.2]
    · simp at h
  · rename_i hm
    simp only [Except.ok.injEq, Prod.mk.injEq] at h
    rw [← h.2]
    simpa using hm

theorem readFileLoop_findFileLoop (lib : RegexpLib) (o t : List Sym)
    (fault : Option IOError) (lines : List (List Sym)) (out0 out : List Sym) (f0 u : Bool)
    (h : readFileLoop lib o t fault lines out0 f0 = Except.ok (out, u)) :
    ∃ b, findFileLoop lib o fault lines = Except.ok b ∧ u = (f0 || b) := by
  induction lines generalizing out0 f0 with
  | nil =>
    cases fault with
    | none =>
      simp only [readFileLoop, Except.ok.injEq, Prod.mk.injEq] at h
      exact ⟨false, by simp [findFileLoop], by simp [h.2]⟩
    | some e => simp [readFileLoop] at h
  | cons l ls ih =>
    rw [readFileLoop] at h
    cases hp : processLine lib o t l with
    | error e => simp [hp] at h
    | ok r =>
      obtain ⟨bytes, fl⟩ := r
      simp only [hp] at h
      obtain ⟨b, hb, hu⟩ := ih _ _ h
      have hm := processLine_flag lib o t l bytes fl hp
      cases fl with
      | true => exact ⟨true, by simp [findFileLoop, hm], by simp [hu]⟩
      | false => exact ⟨b, by simp [findFileLoop, hm, hb], by simpa using hu⟩

theorem readFileLoop_ok_fault (lib : RegexpLib) (o t : List Sym)
    (fault : Option IOError) (lines : List (List Sym)) (out0 out : List Sym) (f0 u : Bool)
    (h : readFileLoop lib o t fault lines out0 f0 = Except.ok (out, u)) : fault = none := by
  induction lines generalizing out0 f0 with
  | nil =>
    cases fault with
    | none => rfl
    | some e => simp [readFileLoop] at h
  | cons l ls ih =>
    rw [readFileLoop] at h
    cases hp : processLine lib o t l with
    | error e => simp [hp] at h
    | ok r =>
      obtain ⟨bytes, fl⟩ := r
      simp only [hp] at h
      exact ih _ _ h

theorem processLine_error (lib : RegexpLib) (o t l : List Sym) (err : Failure)
    (h : processLine lib o t l = Except.error err) :
    err = Failure.patternPanic ∧ lib.valid o = false := by
  unfold processLine at h
  split at h
  · split at h
    · simp at h
    · rename_i hv
      simp only [Except.error.injEq] at h
      exact ⟨h.symm, by simpa using hv⟩
  · simp at h

theorem readFileLoop_fault (lib : RegexpLib) (o t : List Sym) (e : IOError)
    (lines : List (List Sym)) (out0 : List Sym) (f0 : Bool) :
    readFileLoop lib o t (some e) lines out0 f0 = Except.error (Failure.io e) ∨
      (readFileLoop lib o t (some e) lines out0 f0 = Except.error Failure.patternPanic ∧
        lib.valid o = false) := by
  induction lines generalizing out0 f0 with
  | nil => left; simp [readFileLoop]
  | cons l ls ih =>
    rw [readFileLoop]
    cases hp : processLine lib o t l with
    | error err =>
      right
      obtain ⟨rfl, hv⟩ := processLine_error lib o t l err hp
      exact ⟨rfl, hv⟩
    | ok r =>
      obtain ⟨bytes, fl⟩ := r
      exact ih _ _

/-- Without a read error the scan completes unless `MustCompile(origin)`
panics: it completes when `origin` compiles, and when the bounded pattern does
not (no line is then flagged). -/
theorem readFileLoop_completes (lib : RegexpLib) (o t : List Sym)
    (hv : lib.valid o = true ∨ lib.valid (patternOf o) = false)
    (lines : List (List Sym)) (out0 : List Sym) (f0 : Bool) :
    ∃ out u, readFileLoop lib o t none lines out0 f0 = Except.ok (out, u) := by
  induction lines generalizing out0 f0 with
  | nil => exact ⟨out0, f0, rfl⟩
  | cons l ls ih =>
    rw [readFileLoop]
    cases hp : processLine lib o t l with
    | error err =>
      exfalso
      unfold processLine at hp
      split at hp
      · rename_i hm
        split at hp
        · simp at hp
        · rename_i hvo
          rcases hv with h1 | h2
          · exact hvo h1
          · simp [regexpMatch, h2] at hm
      · simp at hp
    | ok r =>
      obtain ⟨bytes, fl⟩ := r
      exact ih _ _

theorem rename_of_readFile_ok (lib : RegexpLib) (fs : FileSystem) (root : String)
    (o t out : List Sym) (u : Bool)
    (h : readFile lib fs (root ++ FILENAME) o t = Except.ok (out, u)) :
    rename lib fs root o t =
      (if u then
          (fun p => if p = root ++ FILENAME then some { data := out, fault := none } else fs p)
        else fs, Except.ok u) := by
  cases hf : fs (root ++ FILENAME) with
  | none => simp [readFile, hf] at h
  | some f =>
    have hfault : f.fault = none := by
      simp only [readFile, hf] at h
      exact readFileLoop_ok_fault _ _ _ _ _ _ _ _ _ h
    cases u <;> simp [rename, h, writeToFile, hf, hfault]

/-- C10: whenever `readFile` completes on a store, whatever the origin, the
target and the behaviour of `regexp`, `findFile` completes on the same store
with the same answer, and `rename` writes the accumulated output to the store
exactly when that answer is `true`, leaving the file system as it was
otherwise.  On a readable store `readFile` does complete when origin compiles
or the bounded pattern does not. -/
theorem readFile_flag_eq_findFile (lib : RegexpLib) (fs : FileSystem) (root : String)
    (origin target : List Sym) :
    (∀ out updated,
      readFile lib fs (root ++ FILENAME) origin target = Except.ok (out, updated) →
      findFile lib fs (root ++ FILENAME) origin = Except.ok updated ∧
      rename lib fs root origin target =
        (if updated then
            (fun p => if p = root ++ FILENAME then some { data := out, fault := none }
              else fs p)
          else fs, Except.ok updated)) ∧
    (∀ data, fs (root ++ FILENAME) = some { data := data, fault := none } →
      (lib.valid origin = true ∨ lib.valid (patternOf origin) = false) →
      ∃ out updated,
        readFile lib fs (root ++ FILENAME) origin target = Except.ok (out, updated)) := by
  constructor
  · intro out updated h
    refine ⟨?_, rename_of_readFile_ok lib fs root origin target out updated h⟩
    cases hf : fs (root ++ FILENAME) with
    | none => simp [readFile, hf] at h
    | some f =>
      simp only [readFile, hf] at h
      obtain ⟨b, hb, hu⟩ := readFileLoop_findFileLoop _ _ _ _ _ _ _ _ _ h
      simp only [Bool.false_or] at hu
      simp [findFile, hf, hb, hu]
  · intro data hfs hv
    simp only [readFile, hfs]
    exact readFileLoop_completes lib origin target hv _ _ _

/-- C9: if the store cannot be opened, or the device reports a read error
once its content has been delivered, `readFile` returns an error and no
output, and `rename` leaves the file system exactly as it was, whatever
lines were flagged before the failure and whatever `regexp` answers.  The
error is the I/O error itself, unless `MustCompile(origin)` has panicked on a
flagged line before the failure was met. -/
theorem rename_read_failure (lib : RegexpLib) (fs : FileSystem) (root : String)
    (data origin target : List Sym) (e : IOError)
    (hfail : (fs (root ++ FILENAME) = none ∧ e = IOError.notExist) ∨
      fs (root ++ FILENAME) = some { data := data, fault := some e }) :
    ∃ err, readFile lib fs (root ++ FILENAME) origin target = Except.error err ∧
      rename lib fs root origin target = (fs, Except.error err) ∧
      (err = Failure.io e ∨ err = Failure.patternPanic) ∧
      (lib.valid origin = true → err = Failure.io e) := by
  have key : ∀ err, readFile lib fs (root ++ FILENAME) origin target = Except.error err →
      rename lib fs root origin target = (fs, Except.error err) := by
    intro err herr
    simp [rename, herr]
  rcases hfail with ⟨hnone, rfl⟩ | hsome
  · have hr : readFile lib fs (root ++ FILENAME) origin target =
        Except.error (Failure.io IOError.notExist) := by simp [readFile, hnone]
    exact ⟨_, hr, key _ hr, Or.inl rfl, fun _ => rfl⟩
  · have hr : readFile lib fs (root ++ FILENAME) origin target =
        readFileLoop lib origin target (some e) (readLines defaultBufSize data) [] false := by
      simp [readFile, hsome]
    rcases readFileLoop_fault lib origin target e (readLines defaultBufSize data) [] false
      with h | ⟨h, hv⟩
    · rw [h] at hr
      exact ⟨_, hr, key _ hr, Or.inl rfl, fun _ => rfl⟩
    · rw [h] at hr
      refine ⟨_, hr, key _ hr, Or.inr rfl, fun hvo => ?_⟩
      rw [hv] at hvo
      exact Bool.noConfusion hvo
/-! ### `ReadLine` on well-formed text whose lines fit in the buffer -/

theorem byteLen_text (l : List Char) : byteLen (text l) = utf8Len l := by
  simp [byteLen, utf8Len, text, List.map_map, Function.comp_def, Sym.size]

theorem byteLen_append (a b : List Sym) : byteLen (a ++ b) = byteLen a + byteLen b := by
  simp [byteLen]

theorem byteLen_cons (s : Sym) (l : List Sym) : byteLen (s :: l) = s.size + byteLen l := by
  simp [byteLen]

theorem runeLen_pos (c : Char) : 0 < runeLen c := by
  unfold runeLen
  split
  · omega
  · split
    · omega
    · split <;> omega

theorem size_pos (s : Sym) : 0 < s.size := by
  cases s with
  | rune c => exact runeLen_pos c
  | frag b => exact Nat.one_pos

theorem length_le_byteLen (l : List Sym) : l.length ≤ byteLen l := by
  induction l with
  | nil => exact Nat.le_refl _
  | cons s rest ih =>
    have := size_pos s
    rw [byteLen_cons, List.length_cons]
    omega

theorem takeWhile_text_append (pre rest : List Char) (hpre : '\n' ∉ pre) :
    (text (pre ++ '\n' :: rest)).takeWhile (fun c => c != Sym.rune '\n') = text pre := by
  induction pre with
  | nil => simp [text]
  | cons c cs ih =>
    have hc : c ≠ '\n' := fun h => hpre (by simp [h])
    have hcs : '\n' ∉ cs := fun h => hpre (by simp [h])
    have hb : (Sym.rune c != Sym.rune '\n') = true := by simp [hc]
    rw [List.cons_append, text_cons, List.takeWhile_cons, hb]
    simp [ih hcs, text_cons]

theorem takeWhile_text_self (pre : List Char) (hpre : '\n' ∉ pre) :
    (text pre).takeWhile (fun c => c != Sym.rune '\n') = text pre := by
  induction pre with
  | nil => simp [text]
  | cons c cs ih =>
    have hc : c ≠ '\n' := fun h => hpre (by simp [h])
    have hcs : '\n' ∉ cs := fun h => hpre (by simp [h])
    have hb : (Sym.rune c != Sym.rune '\n') = true := by simp [hc]
    rw [text_cons, List.takeWhile_cons, hb]
    simp [ih hcs]

theorem chompS_text (l : List Char) : chompS (text l) = text (chomp l) := by
  unfold chompS chomp
  have h : (text l).getLast? = l.getLast?.map Sym.rune := by simp [text]
  rw [h]
  cases hl : l.getLast? with
  | none => simp
  | some c =>
    by_cases hc : c = '\r'
    · subst hc
      simp [text, List.map_dropLast]
    · have : ¬ (Sym.rune c = Sym.rune '\r') := fun h => hc (Sym.rune.inj h)
      simp [hc, this]

theorem readLine_terminated (n : Nat) (pre rest : List Char) (hpre : '\n' ∉ pre)
    (hlen : utf8Len pre < n) :
    readLine n (text (pre ++ '\n' :: rest)) = some (text (chomp pre), text rest) := by
  have hne : text (pre ++ '\n' :: rest) ≠ [] := by simp [text]
  simp only [readLine, hne, if_false, takeWhile_text_append pre rest hpre, byteLen_text]
  have h2 : (text pre).length < (text (pre ++ '\n' :: rest)).length := by simp [text]
  rw [if_pos ⟨hlen, h2⟩, chompS_text]
  have hd : (text (pre ++ '\n' :: rest)).drop ((text pre).length + 1) = text rest := by
    rw [text_append, text_cons, ← List.drop_drop, List.drop_left]
    rfl
  rw [hd]

theorem readLine_unterminated (n : Nat) (data : List Char) (hnl : '\n' ∉ data)
    (hne : data ≠ []) (hlen : utf8Len data < n) :
    readLine n (text data) = some (text data, []) := by
  have hne' : text data ≠ [] := by simpa [text] using hne
  simp only [readLine, hne', if_false, takeWhile_text_self data hnl, byteLen_text]
  rw [if_neg (by omega), if_neg (by omega)]

theorem readLinesAux_nil (n k : Nat) : readLinesAux n k [] = [] := by
  cases k <;> simp [readLinesAux, readLine]

theorem readLinesAux_cons (n k : Nat) (data l rest : List Sym)
    (h : readLine n data = some (l, rest)) :
    readLinesAux n (k + 1) data = l :: readLinesAux n k rest := by
  simp [readLinesAux, h]

theorem readLinesAux_eq_textLines (n : Nat) (fuel : Nat) (data : List Char)
    (hfuel : data.length < fuel)
    (hshort : ∀ l ∈ textLines data, utf8Len l + 1 < n) :
    readLinesAux n fuel (text data) = (textLines data).map text := by
  induction fuel generalizing data with
  | zero => omega
  | succ k ih =>
    rcases split_at_newline data with hnl | ⟨pre, rest, hpre, rfl⟩
    · by_cases hne : data = []
      · subst hne; simp [readLinesAux, readLine, textLines, textLinesAux, text]
      · have ht : textLines data = [data] := by
          simp [textLines, textLinesAux_unterminated [] data hnl, hne]
        have hl : utf8Len data + 1 < n := hshort data (by simp [ht])
        rw [readLinesAux_cons _ _ _ _ _ (readLine_unterminated n data hnl hne (by omega)), ht,
          readLinesAux_nil]
        rfl
    · have ht : textLines (pre ++ '\n' :: rest) = chomp pre :: textLines rest := by
        simp [textLines, textLinesAux_terminated [] pre rest hpre]
      have hl : utf8Len (chomp pre) + 1 < n := hshort _ (by simp [ht])
      have := utf8Len_chomp pre
      rw [readLinesAux_cons _ _ _ _ _ (readLine_terminated n pre rest hpre (by omega)), ht,
        ih rest (by simp at hfuel; omega) (fun l hlmem => hshort l (by simp [ht, hlmem]))]
      rfl

/-- When every text line is shorter than the buffer, `ReadLine` delivers
exactly the text lines. -/
theorem readLines_eq_textLines (n : Nat) (data : List Char)
    (hshort : ∀ l ∈ textLines data, utf8Len l + 1 < n) :
    readLines n (text data) = (textLines data).map text := by
  apply readLinesAux_eq_textLines n _ data _ hshort
  have h1 := length_le_byteLen (text data)
  have h2 : (text data).length = data.length := by simp [text]
  omega
/-! ### The fuel of `readLines` is enough -/

theorem utf8Bytes_length (c : Char) : (utf8Bytes c).length = runeLen c := by
  unfold utf8Bytes runeLen
  split
  · rfl
  · split
    · rfl
    · split <;> rfl

theorem byteLen_map_frag (bs : List Nat) : byteLen (bs.map Sym.frag) = bs.length := by
  induction bs with
  | nil => rfl
  | cons b bs ih =>
    rw [List.map_cons, byteLen_cons, ih, List.length_cons]
    show 1 + bs.length = bs.length + 1
    omega

/-- The bytes taken and the bytes left add up to the data, and the buffer is
filled whenever the data is long enough. -/
theorem takeBytes_byteLen (D : List Sym) (n : Nat) :
    byteLen (takeBytes D n).1 + byteLen (takeBytes D n).2 = byteLen D ∧
      (n ≤ byteLen D → byteLen (takeBytes D n).1 = n) := by
  induction D generalizing n with
  | nil =>
    refine ⟨rfl, fun h => ?_⟩
    have : n = 0 := Nat.le_zero.1 h
    rw [this]; rfl
  | cons s rest ih =>
    rw [takeBytes.eq_def]
    simp only []
    by_cases hn : n = 0
    · rw [if_pos hn, hn]
      exact ⟨by simp [byteLen], fun _ => rfl⟩
    · rw [if_neg hn]
      by_cases hs : s.size ≤ n
      · rw [if_pos hs]
        obtain ⟨h1, h2⟩ := ih (n - s.size)
        simp only [byteLen_cons]
        refine ⟨by omega, fun h => ?_⟩
        have := h2 (by omega)
        omega
      · rw [if_neg hs]
        cases s with
        | rune c =>
          have hs' : ¬ runeLen c ≤ n := hs
          simp only [byteLen_append, byteLen_map_frag, byteLen_cons, List.length_take,
            List.length_drop, utf8Bytes_length]
          have hsz : (Sym.rune c).size = runeLen c := rfl
          rw [hsz]
          refine ⟨by omega, fun _ => by omega⟩
        | frag b =>
          have : (Sym.frag b).size = 1 := rfl
          omega

theorem byteLen_pos_of_ne_nil (D : List Sym) (h : D ≠ []) : 0 < byteLen D := by
  cases D with
  | nil => exact absurd rfl h
  | cons s rest =>
    have := size_pos s
    rw [byteLen_cons]
    omega

theorem byteLen_drop_lt (D : List Sym) (k : Nat) (hk : k < D.length) :
    byteLen (D.drop (k + 1)) < byteLen D := by
  have hsplit : D = D.take (k + 1) ++ D.drop (k + 1) := (List.take_append_drop _ _).symm
  have hne : D.take (k + 1) ≠ [] := by
    intro h
    have := congrArg List.length h
    simp only [List.length_take, List.length_nil] at this
    omega
  have hpos := byteLen_pos_of_ne_nil _ hne
  conv_rhs => rw [hsplit, byteLen_append]
  omega

/-- With a buffer of at least two bytes every call of `ReadLine` that
delivers a line consumes at least one byte. -/
theorem readLine_progress (n : Nat) (hn : 2 ≤ n) (D L R : List Sym)
    (h : readLine n D = some (L, R)) : byteLen R < byteLen D := by
  unfold readLine at h
  by_cases hnil : D = []
  · simp [hnil] at h
  · rw [if_neg hnil] at h
    simp only at h
    by_cases h1 : byteLen (D.takeWhile (fun c => c != Sym.rune '\n')) < n ∧
        (D.takeWhile (fun c => c != Sym.rune '\n')).length < D.length
    · rw [if_pos h1] at h
      obtain ⟨_, rfl⟩ := Prod.mk.inj (Option.some.inj h)
      exact byteLen_drop_lt D _ h1.2
    · rw [if_neg h1] at h
      by_cases h2 : n ≤ byteLen D
      · rw [if_pos h2] at h
        obtain ⟨hsum, hfull⟩ := takeBytes_byteLen D n
        have hfull' := hfull h2
        by_cases h3 : (takeBytes D n).1.getLast? = some (Sym.rune '\r')
        · rw [if_pos h3] at h
          obtain ⟨_, rfl⟩ := Prod.mk.inj (Option.some.inj h)
          rw [byteLen_cons]
          have : (Sym.rune '\r').size = 1 := by decide
          omega
        · rw [if_neg h3] at h
          obtain ⟨_, rfl⟩ := Prod.mk.inj (Option.some.inj h)
          omega
      · rw [if_neg h2] at h
        obtain ⟨_, rfl⟩ := Prod.mk.inj (Option.some.inj h)
        exact byteLen_pos_of_ne_nil D hnil

theorem readLinesAux_fuel (n : Nat) (hn : 2 ≤ n) (fuel : Nat) :
    ∀ (D : List Sym) (k : Nat), byteLen D < fuel →
      readLinesAux n (fuel + k) D = readLinesAux n fuel D := by
  induction fuel with
  | zero => intro D k h; exact absurd h (Nat.not_lt_zero _)
  | succ fuel ih =>
    intro D k h
    rw [show fuel + 1 + k = (fuel + k) + 1 from by omega, readLinesAux, readLinesAux]
    cases hr : readLine n D with
    | none => rfl
    | some p =>
      obtain ⟨L, R⟩ := p
      have := readLine_progress n hn D L R hr
      simp only []
      rw [ih R k (by omega)]

/-- The lines of `readLines` are all the lines: more calls of `ReadLine`
deliver nothing more, the reader is at the end of the data. -/
theorem readLines_fuel (n : Nat) (hn : 2 ≤ n) (data : List Sym) (k : Nat) :
    readLinesAux n (byteLen data + 1 + k) data = readLines n data :=
  readLinesAux_fuel n hn (byteLen data + 1) data k (Nat.lt_succ_self _)
/-! ### Lookup -/

theorem findFileLoop_goRegexp (ext : RegexpLib) (v : List Char) (hv : MetaFree v)
    (lines : List (List Sym)) :
    findFileLoop (goRegexp ext) (text v) none lines =
      Except.ok (lines.any (fun l => containsBounded v (l.map Sym.sem))) := by
  induction lines with
  | nil => simp [findFileLoop]
  | cons l ls ih =>
    rw [findFileLoop, regexpMatch_goRegexp ext v hv]
    cases h : containsBounded v (l.map Sym.sem) <;> simp [ih, h]

theorem any_map_text (v : List Char) (ls : List (List Char)) :
    (ls.map text).any (fun l => containsBounded v (l.map Sym.sem)) =
      ls.any (containsBounded v) := by
  induction ls with
  | nil => rfl
  | cons l rest ih => simp [map_sem_text, ih]

theorem findFile_storeAt (lib : RegexpLib) (path : String) (data : List Char)
    (v : List Sym) :
    findFile lib (storeAt path data) path v =
      findFileLoop lib v none (readLines defaultBufSize (text data)) := by
  simp [findFile, storeAt, storeOf]

/-- C1 (amended): for a value without regexp metacharacters and a store whose
lines all fit in the reader's buffer, `findFile` returns a result, and that
result is `true` exactly when some line of the store contains the value as a
literal substring with a comma or double quote immediately before and
immediately after it. -/
theorem findFile_true_iff_bounded (ext : RegexpLib) (path : String) (data V : List Char)
    (hV : MetaFree V)
    (hshort : ∀ l ∈ textLines data, utf8Len l + 1 < defaultBufSize) :
    ∃ b, findFile (goRegexp ext) (storeAt path data) path (text V) = Except.ok b ∧
      (b = true ↔ ∃ line ∈ textLines data, BoundedIn V line) := by
  refine ⟨(textLines data).any (containsBounded V), ?_, ?_⟩
  · rw [findFile_storeAt, readLines_eq_textLines _ _ hshort, findFileLoop_goRegexp ext V hV,
      any_map_text]
  · simp [List.any_eq_true, containsBounded_iff]

/-- Witness for C1 (amended): the lookup scenario of the source comment. -/
theorem findFile_true_iff_bounded_witness :
    MetaFree "供应链事业部".toList ∧
    ∀ ext, ∃ b, findFile (goRegexp ext)
        (storeAt "test.txt" "id1,供应链事业部,x\n整机供应链事业部\n".toList) "test.txt"
        (text "供应链事业部".toList) = Except.ok b ∧
      (b = true ↔ ∃ line ∈ textLines "id1,供应链事业部,x\n整机供应链事业部\n".toList,
        BoundedIn "供应链事业部".toList line) :=
  ⟨by decide, fun ext => findFile_true_iff_bounded ext "test.txt" _ _ (by decide) (by decide)⟩

/-- C1 (as stated) fails: the value `.` is found in the store `,x,` although
no line contains a literal `.` at all; the unescaped value is a pattern. -/
theorem findFile_dot_counterexample :
    (∀ ext, findFile (goRegexp ext) (storeAt "test.txt" ",x,".toList) "test.txt"
        (text ".".toList) = Except.ok true) ∧
      ¬ ∃ line ∈ textLines ",x,".toList, BoundedIn ".".toList line := by
  refine ⟨fun ext => rfl, ?_⟩
  rintro ⟨line, hline, hb⟩
  have hl : line = ",x,".toList := by
    have : textLines ",x,".toList = [",x,".toList] := by decide
    rw [this] at hline
    simpa using hline
  subst hl
  have := (containsBounded_iff _ _).2 hb
  revert this
  decide

/-! ### The scan of a store of well-formed text -/

theorem readFileLoop_text (ext : RegexpLib) (o t : List Char) (ho : MetaFree o)
    (ht : '$' ∉ t) (lines : List (List Char)) (out0 : List Sym) (f0 : Bool) :
    readFileLoop (goRegexp ext) (text o) (text t) none (lines.map text) out0 f0 =
      Except.ok (out0 ++ text (lines.flatMap (fun l => emitLine o t l ++ crlf)),
        f0 || lines.any (containsBounded o)) := by
  induction lines generalizing out0 f0 with
  | nil => simp [readFileLoop, text]
  | cons l ls ih =>
    rw [List.map_cons, readFileLoop, processLine_text ext o t l ho ht]
    simp [ih, Bool.or_assoc, text_append]

theorem readFileLoop_unflagged (lib : RegexpLib) (o t : List Sym)
    (lines : List (List Sym)) (hno : ∀ l ∈ lines, regexpMatch lib (patternOf o) l = false)
    (out0 : List Sym) (f0 : Bool) :
    readFileLoop lib o t none lines out0 f0 =
      Except.ok (out0 ++ lines.flatMap (fun l => l ++ text crlf), f0) := by
  induction lines generalizing out0 f0 with
  | nil => simp [readFileLoop]
  | cons l ls ih =>
    have hl := hno l (by simp)
    have hp : processLine lib o t l = Except.ok (l ++ text crlf, false) := by
      simp [processLine, hl]
    have hrest : ∀ x ∈ ls, regexpMatch lib (patternOf o) x = false :=
      fun x hx => hno x (List.mem_cons_of_mem _ hx)
    rw [readFileLoop, hp]
    simp [ih hrest]

theorem readFile_storeAt (lib : RegexpLib) (path : String) (data : List Char)
    (o t : List Sym) :
    readFile lib (storeAt path data) path o t =
      readFileLoop lib o t none (readLines defaultBufSize (text data)) [] false := by
  simp [readFile, storeAt, storeOf]

theorem readFile_storeOf (lib : RegexpLib) (path : String) (data o t : List Sym) :
    readFile lib (storeOf path data) path o t =
      readFileLoop lib o t none (readLines defaultBufSize data) [] false := by
  simp [readFile, storeOf]

/-- On a store whose lines fit in the buffer, the output holds one entry per
text line, in order: the emitted content followed by CR LF. -/
theorem readFile_short_lines (ext : RegexpLib) (path : String) (data o t : List Char)
    (ho : MetaFree o) (ht : '$' ∉ t)
    (hshort : ∀ l ∈ textLines data, utf8Len l + 1 < defaultBufSize) :
    readFile (goRegexp ext) (storeAt path data) path (text o) (text t) =
      Except.ok (text ((textLines data).flatMap (fun l => emitLine o t l ++ crlf)),
        (textLines data).any (containsBounded o)) := by
  rw [readFile_storeAt, readLines_eq_textLines _ _ hshort, readFileLoop_text ext o t ho ht]
  simp

theorem rename_storeOf (lib : RegexpLib) (root : String) (data o t out : List Sym) (u : Bool)
    (h : readFile lib (storeOf (root ++ FILENAME) data) (root ++ FILENAME) o t =
      Except.ok (out, u)) :
    rename lib (storeOf (root ++ FILENAME) data) root o t =
      (storeOf (root ++ FILENAME) (if u then out else data), Except.ok u) := by
  rw [rename_of_readFile_ok lib _ root o t out u h]
  cases u with
  | false => simp
  | true =>
    simp only [if_true, Prod.mk.injEq, and_true]
    funext p
    by_cases hp : p = root ++ FILENAME <;> simp [storeOf, hp]

/-! ### The write decision of `rename` -/

/-- C8 (amended): for an origin without regexp metacharacters, every target
and every readable store, if no line read from the store holds a
delimiter-bounded occurrence of origin then `readFile` reports
`updated = false` and `rename` returns the file system untouched; if some
line holds one, `readFile` reports `updated = true` and after `rename` the
store holds exactly the output accumulated by the scan, every other path
being as before. -/
theorem rename_writes_iff_flagged (ext : RegexpLib) (fs : FileSystem) (root : String)
    (data : List Sym) (origin : List Char) (target : List Sym)
    (hfs : fs (root ++ FILENAME) = some { data := data, fault := none })
    (ho : MetaFree origin) :
    ((∀ l ∈ readLines defaultBufSize data, ¬ BoundedIn origin (l.map Sym.sem)) →
      ∃ out, readFile (goRegexp ext) fs (root ++ FILENAME) (text origin) target =
          Except.ok (out, false) ∧
        rename (goRegexp ext) fs root (text origin) target = (fs, Except.ok false)) ∧
    ((∃ l ∈ readLines defaultBufSize data, BoundedIn origin (l.map Sym.sem)) →
      ∃ out, readFile (goRegexp ext) fs (root ++ FILENAME) (text origin) target =
          Except.ok (out, true) ∧
        rename (goRegexp ext) fs root (text origin) target =
          (fun p => if p = root ++ FILENAME then some { data := out, fault := none } else fs p,
            Except.ok true)) := by
  have hr : readFile (goRegexp ext) fs (root ++ FILENAME) (text origin) target =
      readFileLoop (goRegexp ext) (text origin) target none
        (readLines defaultBufSize data) [] false := by
    simp [readFile, hfs]
  constructor
  · intro hno
    have hno' : ∀ l ∈ readLines defaultBufSize data,
        regexpMatch (goRegexp ext) (patternOf (text origin)) l = false := by
      intro l hl
      rw [regexpMatch_goRegexp ext origin ho]
      exact containsBounded_false_of_not origin _ (hno l hl)
    rw [readFileLoop_unflagged _ _ _ _ hno'] at hr
    refine ⟨_, hr, ?_⟩
    have := rename_of_readFile_ok _ fs root _ target _ false hr
    simpa using this
  · rintro ⟨l, hl, hb⟩
    obtain ⟨out, u, hok⟩ := readFileLoop_completes (goRegexp ext) (text origin) target
      (Or.inl (goRegexp_valid_origin ext origin ho)) (readLines defaultBufSize data)
      [] false
    obtain ⟨b, hb', hu⟩ := readFileLoop_findFileLoop _ _ _ _ _ _ _ _ _ hok
    rw [findFileLoop_goRegexp ext origin ho] at hb'
    have hany : (readLines defaultBufSize data).any
        (fun l => containsBounded origin (l.map Sym.sem)) = true :=
      List.any_eq_true.2 ⟨l, hl, (containsBounded_iff origin _).2 hb⟩
    rw [hany] at hb'
    have hbt : b = true := (Except.ok.inj hb').symm
    have hut : u = true := by rw [hu, hbt]; rfl
    subst hut
    rw [← hr] at hok
    refine ⟨out, hok, ?_⟩
    have := rename_of_readFile_ok _ fs root _ target _ true hok
    simpa using this
/-- Witness for C8 (amended): the store `id1,整机供应链事业部,x` is left alone,
the store `id1,供应链事业部,x` is rewritten. -/
theorem rename_writes_iff_flagged_witness :
    MetaFree "供应链事业部".toList ∧
    (∀ ext, ∃ out, readFile (goRegexp ext) (storeAt "test.txt" "id1,整机供应链事业部,x".toList)
          ("" ++ FILENAME) (text "供应链事业部".toList) (text "TV供应链事业部".toList) =
          Except.ok (out, false) ∧
        rename (goRegexp ext) (storeAt "test.txt" "id1,整机供应链事业部,x".toList) ""
          (text "供应链事业部".toList) (text "TV供应链事业部".toList) =
          (storeAt "test.txt" "id1,整机供应链事业部,x".toList, Except.ok false)) ∧
    (∀ ext, ∃ out, readFile (goRegexp ext) (storeAt "test.txt" "id1,供应链事业部,x".toList)
          ("" ++ FILENAME) (text "供应链事业部".toList) (text "TV供应链事业部".toList) =
          Except.ok (out, true) ∧
        rename (goRegexp ext) (storeAt "test.txt" "id1,供应链事业部,x".toList) ""
          (text "供应链事业部".toList) (text "TV供应链事业部".toList) =
          (fun p => if p = "" ++ FILENAME then some { data := out, fault := none }
            else storeAt "test.txt" "id1,供应链事业部,x".toList p,
            Except.ok true)) :=
  ⟨by decide,
   fun ext => (rename_writes_iff_flagged ext (storeAt "test.txt" "id1,整机供应链事业部,x".toList)
      "" (text "id1,整机供应链事业部,x".toList) "供应链事业部".toList
      (text "TV供应链事业部".toList)
      rfl (by decide)).1
      (fun l hl hb =>
        absurd ((containsBounded_iff _ _).2 hb)
          ((by decide : ∀ l ∈ readLines defaultBufSize (text "id1,整机供应链事业部,x".toList),
              ¬ containsBounded "供应链事业部".toList (l.map Sym.sem) = true) l hl)),
   fun ext => (rename_writes_iff_flagged ext (storeAt "test.txt" "id1,供应链事业部,x".toList)
      "" (text "id1,供应链事业部,x".toList) "供应链事业部".toList (text "TV供应链事业部".toList)
      rfl (by decide)).2
      ⟨text "id1,供应链事业部,x".toList, by decide, (containsBounded_iff _ _).1 (by decide)⟩⟩

/-- C8 (as stated) fails: no line of the store `,a,` holds a delimiter-bounded
literal `.`, yet `rename` with origin `.` rewrites the store. -/
theorem rename_dot_counterexample :
    readLines defaultBufSize (text ",a,".toList) = [text ",a,".toList] ∧
      ¬ BoundedIn ".".toList ",a,".toList ∧
      (∀ ext, (rename (goRegexp ext) (storeAt "test.txt" ",a,".toList) ""
          (text ".".toList) (text "B".toList)).2 = Except.ok true) ∧
      (∀ ext, (rename (goRegexp ext) (storeAt "test.txt" ",a,".toList) ""
          (text ".".toList) (text "B".toList)).1 "test.txt" =
        some { data := text "BBB\r\n".toList, fault := none }) := by
  refine ⟨by decide, ?_, fun ext => rfl, fun ext => rfl⟩
  intro hb
  have := (containsBounded_iff _ _).2 hb
  revert this
  decide

/-- Witness for C10: a store with one flagged and one unflagged line. -/
theorem readFile_flag_eq_findFile_witness :
    (∀ ext, readFile (goRegexp ext) (storeAt "test.txt" "id1,供应链事业部,x\nid2,y\n".toList)
        ("" ++ FILENAME) (text "供应链事业部".toList) (text "TV供应链事业部".toList) =
      Except.ok (text "id1,TV供应链事业部,x\r\nid2,y\r\n".toList, true)) ∧
    (∀ ext, findFile (goRegexp ext) (storeAt "test.txt" "id1,供应链事业部,x\nid2,y\n".toList)
        ("" ++ FILENAME) (text "供应链事业部".toList) = Except.ok true ∧
      rename (goRegexp ext) (storeAt "test.txt" "id1,供应链事业部,x\nid2,y\n".toList) ""
        (text "供应链事业部".toList) (text "TV供应链事业部".toList) =
        (if true = true then
            (fun p => if p = "" ++ FILENAME then
                some { data := text "id1,TV供应链事业部,x\r\nid2,y\r\n".toList, fault := none }
              else storeAt "test.txt" "id1,供应链事业部,x\nid2,y\n".toList p)
          else storeAt "test.txt" "id1,供应链事业部,x\nid2,y\n".toList, Except.ok true)) :=
  ⟨fun _ => rfl,
   fun ext => (readFile_flag_eq_findFile (goRegexp ext) _ "" _ _).1 _ true rfl⟩

/-- Witness for C9: the first line is flagged, then the device fails. -/
theorem rename_read_failure_witness :
    (fun p => if p = "test.txt" then
        some { data := text "id1,供应链事业部,x\nid2".toList, fault := some (IOError.device 5) }
      else none : FileSystem) ("" ++ FILENAME) =
      some { data := text "id1,供应链事业部,x\nid2".toList, fault := some (IOError.device 5) } ∧
    ∀ ext, ∃ err, readFile (goRegexp ext) (fun p => if p = "test.txt" then
          some { data := text "id1,供应链事业部,x\nid2".toList,
                 fault := some (IOError.device 5) }
        else none) ("" ++ FILENAME) (text "供应链事业部".toList) (text "TV".toList) =
        Except.error err ∧
      rename (goRegexp ext) (fun p => if p = "test.txt" then
          some { data := text "id1,供应链事业部,x\nid2".toList,
                 fault := some (IOError.device 5) }
        else none) "" (text "供应链事业部".toList) (text "TV".toList) =
        ((fun p => if p = "test.txt" then
          some { data := text "id1,供应链事业部,x\nid2".toList,
                 fault := some (IOError.device 5) }
        else none), Except.error err) ∧
      (err = Failure.io (IOError.device 5) ∨ err = Failure.patternPanic) ∧
      ((goRegexp ext).valid (text "供应链事业部".toList) = true →
        err = Failure.io (IOError.device 5)) :=
  ⟨rfl, fun ext => rename_read_failure (goRegexp ext) _ "" _ _ _ (IOError.device 5)
    (Or.inr rfl)⟩

/-! ### One output entry per delivered line -/

theorem not_mem_replicate_a (c : Char) (n : Nat) (hc : c ≠ 'a') :
    c ∉ List.replicate n 'a' :=
  fun h => hc (List.eq_of_mem_replicate h)

theorem runeLen_a : runeLen 'a' = 1 := by decide

theorem utf8Len_replicate_a (k : Nat) : utf8Len (List.replicate k 'a') = k := by
  induction k with
  | zero => rfl
  | succ k ih =>
    rw [List.replicate_succ]
    have : utf8Len ('a' :: List.replicate k 'a') =
        runeLen 'a' + utf8Len (List.replicate k 'a') := by
      simp [utf8Len]
    rw [this, ih, runeLen_a]
    omega

theorem takeBytes_replicate_a (k : Nat) (rest : List Char) :
    takeBytes (text (List.replicate k 'a' ++ rest)) k =
      (text (List.replicate k 'a'), text rest) := by
  induction k with
  | zero => cases rest <;> simp [takeBytes, text]
  | succ k ih =>
    have hs : (Sym.rune 'a').size = 1 := runeLen_a
    rw [List.replicate_succ, List.cons_append, text_cons, takeBytes, if_neg (by omega),
      if_pos (by rw [hs]; omega), hs, Nat.add_sub_cancel, ih]
    rfl

theorem readLine_full_a (n : Nat) :
    readLine n (text (List.replicate (n + 1) 'a')) =
      some (text (List.replicate n 'a'), text ['a']) := by
  have hnl : '\n' ∉ List.replicate (n + 1) 'a' := not_mem_replicate_a _ _ (by decide)
  have hne : text (List.replicate (n + 1) 'a') ≠ [] := by simp [List.replicate_succ, text]
  have htb : takeBytes (text (List.replicate (n + 1) 'a')) n =
      (text (List.replicate n 'a'), text ['a']) := by
    have := takeBytes_replicate_a n ['a']
    rw [← List.replicate_succ'] at this
    exact this
  have hlast : (text (List.replicate n 'a')).getLast? ≠ some (Sym.rune '\r') := by
    intro h
    have hmem := List.mem_of_getLast?_eq_some h
    simp only [text, List.mem_map] at hmem
    obtain ⟨c, hc, hcc⟩ := hmem
    have := List.eq_of_mem_replicate hc
    rw [this] at hcc
    exact absurd (Sym.rune.inj hcc) (by decide)
  simp only [readLine, hne, if_false, takeWhile_text_self _ hnl, byteLen_text,
    utf8Len_replicate_a]
  rw [if_neg (by omega), if_pos (by omega), htb]
  simp only [hlast, if_false]

theorem readLines_replicate (n : Nat) (hn : 0 < n) :
    readLines n (text (List.replicate (n + 1) 'a')) =
      [text (List.replicate n 'a'), text ['a']] := by
  have h1 := readLine_full_a n
  have h2 : readLine n (text ['a']) = some (text ['a'], []) := by
    by_cases h1n : n = 1
    · subst h1n; rfl
    · exact readLine_unterminated n ['a'] (by decide) (by decide)
        (by rw [show utf8Len ['a'] = 1 from rfl]; omega)
  rw [readLines, byteLen_text, utf8Len_replicate_a, readLinesAux_cons _ _ _ _ _ h1,
    readLinesAux_cons _ _ _ _ _ h2, readLinesAux_nil]

/-- C7 at its failing input: a store made of one unterminated line of 4097
characters `a` (one more than the reader's buffer) is emitted as two
entries, the first 4096 characters and the last one, each followed by CR LF,
although the store has a single text line. -/
theorem readFile_long_line_split (ext : RegexpLib) :
    textLines (List.replicate (defaultBufSize + 1) 'a') =
      [List.replicate (defaultBufSize + 1) 'a'] ∧
    readFile (goRegexp ext) (storeAt "test.txt" (List.replicate (defaultBufSize + 1) 'a'))
        "test.txt" (text ['x']) (text ['y']) =
      Except.ok (text (List.replicate defaultBufSize 'a' ++ crlf ++ ('a' :: crlf)), false) := by
  have hnl : '\n' ∉ List.replicate (defaultBufSize + 1) 'a' :=
    not_mem_replicate_a _ _ (by decide)
  constructor
  · rw [textLines, textLinesAux_unterminated [] _ hnl, List.nil_append, if_neg]
    rw [List.replicate_succ]
    exact List.cons_ne_nil _ _
  · rw [readFile_storeAt, readLines_replicate defaultBufSize (by decide)]
    have hno : ∀ l ∈ [List.replicate defaultBufSize 'a', ['a']],
        containsBounded ['x'] l = false := by
      intro l hl
      apply containsBounded_false_of_no_delim
      intro c hc
      have hca : c = 'a' := by
        rcases List.mem_cons.1 hl with h | h
        · subst h; exact List.eq_of_mem_replicate hc
        · have hl1 : l = ['a'] := List.mem_singleton.1 h
          subst hl1; exact List.mem_singleton.1 hc
      subst hca; rfl
    have hlines : [text (List.replicate defaultBufSize 'a'), text ['a']] =
        [List.replicate defaultBufSize 'a', ['a']].map text := rfl
    rw [hlines, readFileLoop_text ext ['x'] ['y'] (by decide) (by decide)]
    have h1 : emitLine ['x'] ['y'] (List.replicate defaultBufSize 'a') =
        List.replicate defaultBufSize 'a' := by
      rw [emitLine, hno _ (by simp)]; rfl
    have h2 : emitLine ['x'] ['y'] ['a'] = ['a'] := rfl
    have hany : [List.replicate defaultBufSize 'a', ['a']].any (containsBounded ['x']) =
        false := by
      rw [List.any_eq_false]
      intro l hl
      simp [hno l hl]
    rw [hany]
    simp only [List.flatMap_cons, List.flatMap_nil, h1, h2, List.nil_append, List.append_nil,
      List.singleton_append, List.append_assoc, Bool.or_false]
/-! ### Values and boundary characters of an emitted line -/

/-- C4: for plain names origin and target, the line emitted by `readFile` has
the same boundary characters as the input line and the same values at the same
positions, except that a value which is exactly origin with a boundary
character on both sides has become target.  Every value that merely contains
origin (such as `XDeptA` for `DeptA`), and an origin standing at the start or
the end of the line, is emitted unchanged. -/
theorem unbounded_occurrence_untouched (ext : RegexpLib) (line origin target : List Char)
    (ho : PlainName origin) (ht : PlainName target) :
    ∃ out, processLine (goRegexp ext) (text origin) (text target) (text line) =
        Except.ok (text out ++ text crlf, containsBounded origin line) ∧
      delims out = delims line ∧
      (fields out).length = (fields line).length ∧
      ∀ i, (fields out)[i]? = (fields line)[i]? ∨
        ((fields line)[i]? = some origin ∧ (fields out)[i]? = some target ∧
          0 < i ∧ i + 1 < (fields line).length) := by
  refine ⟨emitLine origin target line,
    processLine_text ext origin target line ho.2.1 (not_mem_dollar_of_metaFree _ ht.2.1),
    ?_, ?_, ?_⟩
  · simp [delims, toFields_emitLine origin target line ho ht.2.2, rwSegs_map_fst]
  · simp [fields, toFields_emitLine origin target line ho ht.2.2, rwSegs_length]
  · intro i
    simp only [fields, toFields_emitLine origin target line ho ht.2.2]
    match i with
    | 0 => left; simp
    | j + 1 =>
      simp only [List.getElem?_cons_succ, List.getElem?_map, List.length_cons, List.length_map]
      rcases rwSegs_getElem? origin target (toFields line).2 j with h | ⟨d, h1, h2, h3⟩
      · left; rw [h]
      · right
        refine ⟨by rw [h1]; rfl, by rw [h2]; rfl, by omega, by omega⟩

/-- Witness for C4: `XDeptA` stays while the bounded `DeptA` is renamed. -/
theorem unbounded_occurrence_untouched_witness :
    PlainName "DeptA".toList ∧ PlainName "DeptB".toList ∧
    ∀ ext, ∃ out, processLine (goRegexp ext) (text "DeptA".toList) (text "DeptB".toList)
          (text "id1,XDeptA,DeptA,x".toList) =
        Except.ok (text out ++ text crlf,
          containsBounded "DeptA".toList "id1,XDeptA,DeptA,x".toList) ∧
      delims out = delims "id1,XDeptA,DeptA,x".toList ∧
      (fields out).length = (fields "id1,XDeptA,DeptA,x".toList).length ∧
      ∀ i, (fields out)[i]? = (fields "id1,XDeptA,DeptA,x".toList)[i]? ∨
        ((fields "id1,XDeptA,DeptA,x".toList)[i]? = some "DeptA".toList ∧
          (fields out)[i]? = some "DeptB".toList ∧
          0 < i ∧ i + 1 < (fields "id1,XDeptA,DeptA,x".toList).length) :=
  ⟨by decide, by decide,
   fun ext => unbounded_occurrence_untouched ext _ _ _ (by decide) (by decide)⟩

/-- C3 (amended): for a plain name origin, a target without `$`, and a line
in which no two delimiter-bounded occurrences of origin share a boundary
character, the line emitted by `readFile` is the input line with every
delimiter-bounded occurrence of origin replaced by target and everything
else, occurrences of origin that are not delimiter-bounded included, left as
it is; the line is flagged exactly when it holds a bounded occurrence. -/
theorem emitted_replaces_bounded_only (ext : RegexpLib) (line origin target : List Char)
    (ho : PlainName origin) (ht : '$' ∉ target) (hns : NoSharedDelim origin line) :
    processLine (goRegexp ext) (text origin) (text target) (text line) =
      Except.ok (text (replaceEveryBounded origin target 0 line) ++ text crlf,
        containsBounded origin line) := by
  rw [processLine_text ext origin target line ho.2.1 ht,
    emitLine_eq_replaceEveryBounded origin target line ho hns]

/-- C3 (as stated) fails: in the flagged line `XDeptA,DeptA,x` only the
bounded `DeptA` is renamed, whereas replacing every occurrence of the literal
would also rewrite `XDeptA`. -/
theorem unbounded_not_replaced_counterexample :
    (∀ ext, processLine (goRegexp ext) (text "DeptA".toList) (text "DeptB".toList)
        (text "XDeptA,DeptA,x".toList) =
        Except.ok (text "XDeptA,DeptB,x\r\n".toList, true)) ∧
      replaceLiteral "DeptA".toList "DeptB".toList 0 "XDeptA,DeptA,x".toList =
        "XDeptB,DeptB,x".toList ∧
      "XDeptA,DeptB,x".toList ≠ "XDeptB,DeptB,x".toList := by
  refine ⟨fun ext => rfl, rfl, by decide⟩

/-- Witness for C3 (amended): two separate bounded occurrences and one
unbounded occurrence. -/
theorem emitted_replaces_bounded_only_witness :
    PlainName "DeptA".toList ∧ '$' ∉ "DeptB".toList ∧
    NoSharedDelim "DeptA".toList "XDeptA,DeptA,x,\"DeptA\"".toList ∧
    (∀ ext, processLine (goRegexp ext) (text "DeptA".toList) (text "DeptB".toList)
        (text "XDeptA,DeptA,x,\"DeptA\"".toList) =
      Except.ok (text (replaceEveryBounded "DeptA".toList "DeptB".toList 0
          "XDeptA,DeptA,x,\"DeptA\"".toList) ++ text crlf,
        containsBounded "DeptA".toList "XDeptA,DeptA,x,\"DeptA\"".toList)) ∧
    replaceEveryBounded "DeptA".toList "DeptB".toList 0 "XDeptA,DeptA,x,\"DeptA\"".toList =
      "XDeptA,DeptB,x,\"DeptB\"".toList :=
  ⟨by decide, by decide, (noSharedDelim_iff _ _ (by decide)).2 (by decide),
   fun ext => emitted_replaces_bounded_only ext _ _ _ (by decide) (by decide)
    ((noSharedDelim_iff _ _ (by decide)).2 (by decide)), by decide⟩

/-! ### A bounded occurrence is renamed -/

/-- C2 (amended): for a plain name A and a target B without `,`, `"` or `$`,
A different from B, and a line that contains `,A,` and in which no two
delimiter-bounded occurrences of A share a boundary character, `readFile`
flags the line and the line it emits contains `,B,` and holds no
delimiter-bounded occurrence of A any more. -/
theorem bounded_origin_renamed (ext : RegexpLib) (pre post A B : List Char)
    (hA : PlainName A) (hB : DelimFree B) (hB' : '$' ∉ B) (hAB : A ≠ B)
    (hns : NoSharedDelim A (pre ++ ',' :: (A ++ ',' :: post))) :
    ∃ out, processLine (goRegexp ext) (text A) (text B)
          (text (pre ++ ',' :: (A ++ ',' :: post))) =
        Except.ok (text out ++ text crlf, true) ∧
      (∃ pre' post', out = pre' ++ ',' :: (B ++ ',' :: post')) ∧ ¬ BoundedIn A out := by
  have hflag : containsBounded A (pre ++ ',' :: (A ++ ',' :: post)) = true :=
    (containsBounded_iff _ _).2 ⟨pre, ',', ',', post, by decide, by decide, rfl⟩
  have hadj := (noSharedDelim_iff A _ hA.2.2).1 hns
  have hsegs := toFields_bounded pre A post ',' ',' hA.2.2 (by decide) (by decide)
  have hout := toFields_emitLine A B (pre ++ ',' :: (A ++ ',' :: post)) hA hB
  rw [rwSegs_eq_rwAll A B _ hadj] at hout
  refine ⟨emitLine A B (pre ++ ',' :: (A ++ ',' :: post)), ?_, ?_, ?_⟩
  · rw [processLine_text ext A B _ hA.2.1 hB', hflag]
  · rw [emitLine_fields A B _ hA.1 hA.2.2, rwSegs_eq_rwAll A B _ hadj, hsegs, rwAll_append,
      rwAll, if_pos rfl]
    obtain ⟨f', X, hX⟩ := rwAll_head A B ',' (toFields post).1 (toFields post).2
    rw [hX]
    refine ⟨(toFields (pre ++ ',' :: (A ++ ',' :: post))).1 ++
      flatSegs ((toFields pre).2.map (fun q => (q.1, if q.2 = A then B else q.2))),
      f' ++ flatSegs X, ?_⟩
    simp [flatSegs_append, flatSegs]
  · intro hb
    have := (containsBounded_iff _ _).2 hb
    rw [containsBounded_eq_anyInterior A _ hA.2.2, hout, anyInterior_rwAll A B hAB] at this
    exact Bool.noConfusion this

/-- Witness for C2 (amended): the scenario of the source comment. -/
theorem bounded_origin_renamed_witness :
    PlainName "供应链事业部".toList ∧ DelimFree "TV供应链事业部".toList ∧
    '$' ∉ "TV供应链事业部".toList ∧ "供应链事业部".toList ≠ "TV供应链事业部".toList ∧
    NoSharedDelim "供应链事业部".toList
      ("id1".toList ++ ',' :: ("供应链事业部".toList ++ ',' :: "x".toList)) ∧
    ∀ ext, ∃ out, processLine (goRegexp ext) (text "供应链事业部".toList)
        (text "TV供应链事业部".toList)
        (text ("id1".toList ++ ',' :: ("供应链事业部".toList ++ ',' :: "x".toList))) =
        Except.ok (text out ++ text crlf, true) ∧
      (∃ pre' post', out = pre' ++ ',' :: ("TV供应链事业部".toList ++ ',' :: post')) ∧
      ¬ BoundedIn "供应链事业部".toList out :=
  ⟨by decide, by decide, by decide, by decide,
   (noSharedDelim_iff _ _ (by decide)).2 (by decide),
   fun ext => bounded_origin_renamed ext "id1".toList "x".toList _ _ (by decide) (by decide)
    (by decide) (by decide) ((noSharedDelim_iff _ _ (by decide)).2 (by decide))⟩

/-- C2 (as stated) fails: with origin `.` the line `,.,` is emitted as `BBB`,
which does not contain `,B,`; and with origin equal to target the emitted
line still contains `,A,`. -/
theorem bounded_origin_renamed_counterexample :
    (∀ ext, processLine (goRegexp ext) (text ".".toList) (text "B".toList) (text ",.,".toList) =
        Except.ok (text "BBB\r\n".toList, true)) ∧
      (¬ ∃ pre post, "BBB".toList = pre ++ ',' :: ("B".toList ++ ',' :: post)) ∧
      (∀ ext, processLine (goRegexp ext) (text "A".toList) (text "A".toList)
        (text ",A,".toList) = Except.ok (text ",A,\r\n".toList, true)) := by
  refine ⟨fun ext => rfl, ?_, fun ext => rfl⟩
  rintro ⟨pre, post, h⟩
  have hmem : ',' ∈ "BBB".toList := by rw [h]; simp
  revert hmem
  decide
/-! ### Occurrences inside a piece of a line -/

theorem infix_strip_left (d : Char) (o f y : List Char) (hf : d ∉ f)
    (h : d :: o <:+: f ++ y) : d :: o <:+: y := by
  induction f with
  | nil => exact h
  | cons c f ih =>
    rw [List.cons_append, List.infix_cons_iff] at h
    rcases h with h | h
    · have := (List.cons_prefix_cons.1 h).1
      exact absurd (by rw [this]; exact List.mem_cons_self _ _) hf
    · exact ih (fun hm => hf (List.mem_cons_of_mem _ hm)) h

theorem infix_strip_right (d : Char) (o x f : List Char) (hf : d ∉ f)
    (h : o ++ [d] <:+: x ++ f) : o ++ [d] <:+: x := by
  rw [← List.reverse_infix, List.reverse_append, List.reverse_append] at h
  rw [← List.reverse_infix, List.reverse_append]
  exact infix_strip_left d _ _ _ (by simpa using hf) h

theorem prefix_split_at (c : Char) (o u v : List Char) (hc : c ∉ o)
    (h : o <+: u ++ c :: v) : o <+: u := by
  induction u generalizing o with
  | nil =>
    cases o with
    | nil => exact List.nil_prefix
    | cons a o =>
      have := (List.cons_prefix_cons.1 h).1
      exact absurd (by rw [this]; exact List.mem_cons_self _ _) hc
  | cons a u ih =>
    cases o with
    | nil => exact List.nil_prefix
    | cons b o =>
      rw [List.cons_append] at h
      obtain ⟨hab, ho⟩ := List.cons_prefix_cons.1 h
      rw [hab]
      exact List.cons_prefix_cons.2 ⟨rfl, ih o (fun hm => hc (List.mem_cons_of_mem _ hm)) ho⟩

theorem infix_split_at (c : Char) (o u v : List Char) (hc : c ∉ o)
    (h : o <:+: u ++ c :: v) : o <:+: u ∨ o <:+: v := by
  induction u with
  | nil =>
    rw [List.nil_append, List.infix_cons_iff] at h
    rcases h with h | h
    · left
      exact (prefix_split_at c o [] v hc h).isInfix
    · right; exact h
  | cons a u ih =>
    rw [List.cons_append, List.infix_cons_iff] at h
    rcases h with h | h
    · left
      exact (prefix_split_at c o (a :: u) v hc h).isInfix
    · rcases ih h with h' | h'
      · left; exact List.infix_cons h'
      · right; exact h'

theorem boundedIn_iff_occurs (v line : List Char) :
    BoundedIn v line ↔ ∃ d1 d2, isDelim d1 = true ∧ isDelim d2 = true ∧
      (d1 :: v) ++ [d2] <:+: line := by
  constructor
  · rintro ⟨pre, d1, d2, post, h1, h2, rfl⟩
    exact ⟨d1, d2, h1, h2, pre, post, by simp⟩
  · rintro ⟨d1, d2, h1, h2, pre, post, h⟩
    exact ⟨pre, d1, d2, post, h1, h2, by rw [← h]; simp⟩

theorem not_mem_of_delimFree (d : Char) (f : List Char) (hd : isDelim d = true)
    (hf : DelimFree f) : d ∉ f :=
  fun hm => by rw [hf d hm] at hd; exact Bool.noConfusion hd

/-- A delimiter-bounded occurrence lies between two boundary characters, so
it is not affected by what surrounds the line as long as that holds no
boundary character. -/
theorem boundedIn_strip (v f1 x f2 : List Char) (h1 : DelimFree f1) (h2 : DelimFree f2)
    (h : BoundedIn v (f1 ++ x ++ f2)) : BoundedIn v x := by
  obtain ⟨d1, d2, hd1, hd2, hin⟩ := (boundedIn_iff_occurs _ _).1 h
  refine (boundedIn_iff_occurs _ _).2 ⟨d1, d2, hd1, hd2, ?_⟩
  apply infix_strip_right d2 _ _ f2 (not_mem_of_delimFree d2 f2 hd2 h2)
  rw [List.append_assoc] at hin
  exact infix_strip_left d1 _ f1 _ (not_mem_of_delimFree d1 f1 hd1 h1) hin

theorem boundedIn_of_part (v x y : List Char) (hxy : x <:+: y) (h : BoundedIn v x) :
    BoundedIn v y := by
  obtain ⟨d1, d2, hd1, hd2, hin⟩ := (boundedIn_iff_occurs _ _).1 h
  exact (boundedIn_iff_occurs _ _).2 ⟨d1, d2, hd1, hd2, hin.trans hxy⟩

theorem infix_flatMap_crlf (o : List Char) (es : List (List Char)) (hne : o ≠ [])
    (hnl : '\n' ∉ o) (h : o <:+: es.flatMap (fun e => e ++ crlf)) :
    ∃ e ∈ es, o <:+: e ++ ['\r'] := by
  induction es with
  | nil =>
    rw [List.flatMap_nil] at h
    exact absurd (List.eq_nil_of_infix_nil h) hne
  | cons e es ih =>
    have hsplit : (e :: es).flatMap (fun e => e ++ crlf) =
        (e ++ ['\r']) ++ '\n' :: es.flatMap (fun e => e ++ crlf) := by
      simp [crlf]
    rw [hsplit] at h
    rcases infix_split_at '\n' o _ _ hnl h with h' | h'
    · exact ⟨e, List.mem_cons_self _ _, h'⟩
    · obtain ⟨e', he', h''⟩ := ih h'
      exact ⟨e', List.mem_cons_of_mem _ he', h''⟩

/-- A line read back from a store that was written line by line holds no
delimiter-bounded occurrence that the written lines do not hold. -/
theorem not_bounded_read_back (v : List Char) (es : List (List Char))
    (hes : ∀ e ∈ es, ¬ BoundedIn v e) (f1 x f2 : List Char) (h1 : DelimFree f1)
    (h2 : DelimFree f2) (hx : x <:+: es.flatMap (fun e => e ++ crlf))
    (hnl : '\n' ∉ x) : ¬ BoundedIn v (f1 ++ x ++ f2) := by
  intro hb
  obtain ⟨d1, d2, hd1, hd2, hin⟩ := (boundedIn_iff_occurs _ _).1 (boundedIn_strip v f1 x f2 h1 h2 hb)
  have hnl' : '\n' ∉ (d1 :: v) ++ [d2] := fun hm => hnl (hin.subset hm)
  obtain ⟨e, he, hine⟩ := infix_flatMap_crlf _ es (by simp) hnl' (hin.trans hx)
  have hd2r : d2 ∉ ['\r'] := by
    intro hm
    rw [List.mem_singleton.1 hm] at hd2
    exact absurd hd2 (by decide)
  exact hes e he ((boundedIn_iff_occurs _ _).2
    ⟨d1, d2, hd1, hd2, infix_strip_right d2 _ e ['\r'] hd2r hine⟩)

theorem chomp_eq_or (l : List Char) : chomp l = l ∨ l = chomp l ++ ['\r'] := by
  unfold chomp
  split
  · right
    rename_i h
    exact (List.dropLast_append_getLast? _ h).symm
  · left; rfl

theorem infix_textLines (d : Char) (o : List Char) (hd : d ≠ '\r') (n : Nat) :
    ∀ data : List Char, data.length ≤ n → '\n' ∉ o ++ [d] → o ++ [d] <:+: data →
      ∃ tl ∈ textLines data, o ++ [d] <:+: tl := by
  induction n with
  | zero =>
    intro data hlen _ hin
    have : data = [] := List.length_eq_zero.1 (Nat.le_zero.1 hlen)
    rw [this] at hin
    exact absurd (List.eq_nil_of_infix_nil hin) (by simp)
  | succ n ih =>
    intro data hlen hnl hin
    rcases split_at_newline data with h | ⟨pre, rest, hpre, rfl⟩
    · have hne : data ≠ [] := by
        intro h0
        rw [h0] at hin
        exact absurd (List.eq_nil_of_infix_nil hin) (by simp)
      rw [textLines, textLinesAux_unterminated [] data h, List.nil_append, if_neg hne]
      exact ⟨data, List.mem_singleton.2 rfl, hin⟩
    · rw [textLines, textLinesAux_terminated [] pre rest hpre, List.nil_append]
      rcases infix_split_at '\n' _ _ _ hnl hin with h' | h'
      · refine ⟨chomp pre, List.mem_cons_self _ _, ?_⟩
        rcases chomp_eq_or pre with hc | hc
        · rw [hc]; exact h'
        · rw [hc] at h'
          exact infix_strip_right d o _ ['\r'] (by simpa using hd) h'
      · have hlen' : rest.length ≤ n := by
          simp only [List.length_append, List.length_cons] at hlen
          omega
        obtain ⟨tl, htl, hin'⟩ := ih rest hlen' hnl h'
        exact ⟨tl, List.mem_cons_of_mem _ htl, hin'⟩

/-- A piece of a text line inherits that no two bounded occurrences share a
boundary character. -/
theorem noSharedDelim_piece (v data m : List Char)
    (hns : ∀ l ∈ textLines data, NoSharedDelim v l) (hm : m <:+: data) (hnl : '\n' ∉ m) :
    NoSharedDelim v m := by
  rintro ⟨pre, d1, d2, d3, post, h1, h2, h3, rfl⟩
  have hin : (d1 :: (v ++ d2 :: v)) ++ [d3] <:+: pre ++ d1 :: (v ++ d2 :: (v ++ d3 :: post)) :=
    ⟨pre, post, by simp⟩
  have hd3 : d3 ≠ '\r' := by
    intro h
    rw [h] at h3
    exact absurd h3 (by decide)
  obtain ⟨tl, htl, hin'⟩ := infix_textLines d3 _ hd3 data.length data (Nat.le_refl _)
    (fun hmem => hnl (hin.subset hmem)) (hin.trans hm)
  obtain ⟨s, t, hst⟩ := hin'
  exact hns tl htl ⟨s, d1, d2, d3, t, h1, h2, h3, by rw [← hst]; simp⟩
/-! ### Delivered lines as pieces of the store -/

theorem delimFree_map_take (a : List Sym) (k : Nat) (h : DelimFree (a.map Sym.sem)) :
    DelimFree ((a.take k).map Sym.sem) :=
  fun c hc => h c (List.map_subset _ (List.take_subset k a) hc)

theorem delimFree_map_drop (a : List Sym) (k : Nat) (h : DelimFree (a.map Sym.sem)) :
    DelimFree ((a.drop k).map Sym.sem) :=
  fun c hc => h c (List.map_subset _ (List.drop_subset k a) hc)

theorem delimFree_map_append (a b : List Sym) (ha : DelimFree (a.map Sym.sem))
    (hb : DelimFree (b.map Sym.sem)) : DelimFree ((a ++ b).map Sym.sem) := by
  intro c hc
  rw [List.map_append] at hc
  rcases List.mem_append.1 hc with h | h
  · exact ha c h
  · exact hb c h

theorem delimFree_map_frag (bs : List Nat) : DelimFree ((bs.map Sym.frag).map Sym.sem) := by
  intro c hc
  simp only [List.map_map, List.mem_map, Function.comp] at hc
  obtain ⟨b, _, rfl⟩ := hc
  rfl

theorem delimFree_map_nil : DelimFree (([] : List Sym).map Sym.sem) :=
  fun _ hc => absurd hc (List.not_mem_nil _)

theorem unread_self (S : List Sym) : Unread S S :=
  ⟨[], S, rfl, delimFree_map_nil, List.suffix_refl S⟩

theorem unread_suffix (S D D2 : List Sym) (hD : Unread S D) (h : D2 <:+ D) :
    Unread S D2 := by
  obtain ⟨a, Y, rfl, ha, hY⟩ := hD
  rw [List.suffix_iff_eq_drop, List.drop_append_eq_append_drop] at h
  exact ⟨_, _, h, delimFree_map_drop a _ ha, (List.drop_suffix _ Y).trans hY⟩

theorem unread_prepend (S D g : List Sym) (hD : Unread S D)
    (hg : DelimFree (g.map Sym.sem)) : Unread S (g ++ D) := by
  obtain ⟨a, Y, rfl, ha, hY⟩ := hD
  exact ⟨g ++ a, Y, by simp, delimFree_map_append g a hg ha, hY⟩

theorem pieceOf_unread (S D : List Sym) (hD : Unread S D) : PieceOf S D := by
  obtain ⟨a, Y, rfl, ha, hY⟩ := hD
  exact ⟨a, Y, [], by simp, ha, delimFree_map_nil, hY.isInfix⟩

theorem pieceOf_initial (S L L2 : List Sym) (hL : PieceOf S L) (h : L2 <+: L) :
    PieceOf S L2 := by
  obtain ⟨a, X, b, rfl, ha, hb, hX⟩ := hL
  rw [List.prefix_iff_eq_take, List.take_append_eq_append_take,
    List.take_append_eq_append_take] at h
  exact ⟨_, _, _, h, delimFree_map_take a _ ha, delimFree_map_take b _ hb,
    (List.take_prefix _ X).isInfix.trans hX⟩

theorem pieceOf_append (S L f : List Sym) (hL : PieceOf S L)
    (hf : DelimFree (f.map Sym.sem)) : PieceOf S (L ++ f) := by
  obtain ⟨a, X, b, rfl, ha, hb, hX⟩ := hL
  exact ⟨a, X, b ++ f, by simp, ha, delimFree_map_append b f hb hf, hX⟩

theorem takeBytes_spec (D : List Sym) (n : Nat) :
    ∃ P f g R, takeBytes D n = (P ++ f, g ++ R) ∧ P <+: D ∧ R <:+ D ∧
      DelimFree (f.map Sym.sem) ∧ DelimFree (g.map Sym.sem) := by
  induction D generalizing n with
  | nil =>
    exact ⟨[], [], [], [], rfl, List.prefix_refl _, List.suffix_refl _, delimFree_map_nil,
      delimFree_map_nil⟩
  | cons s rest ih =>
    rw [takeBytes.eq_def]
    simp only []
    by_cases hn : n = 0
    · rw [if_pos hn]
      exact ⟨[], [], [], s :: rest, rfl, List.nil_prefix, List.suffix_refl _,
        delimFree_map_nil, delimFree_map_nil⟩
    · rw [if_neg hn]
      by_cases hs : s.size ≤ n
      · rw [if_pos hs]
        obtain ⟨P, f, g, R, htb, hP, hR, hf, hg⟩ := ih (n - s.size)
        rw [htb]
        exact ⟨s :: P, f, g, R, rfl, List.cons_prefix_cons.2 ⟨rfl, hP⟩,
          hR.trans (List.suffix_cons s rest), hf, hg⟩
      · rw [if_neg hs]
        cases s with
        | rune c =>
          exact ⟨[], ((utf8Bytes c).take n).map Sym.frag, ((utf8Bytes c).drop n).map Sym.frag,
            rest, rfl, List.nil_prefix, List.suffix_cons _ rest, delimFree_map_frag _,
            delimFree_map_frag _⟩
        | frag b =>
          exact ⟨[Sym.frag b], [], [], rest, by simp, List.cons_prefix_cons.2 ⟨rfl, List.nil_prefix⟩,
            List.suffix_cons _ rest, delimFree_map_nil, delimFree_map_nil⟩

theorem takeBytes_no_newline (D : List Sym) (n : Nat)
    (h : n ≤ byteLen (D.takeWhile (fun c => c != Sym.rune '\n'))) :
    Sym.rune '\n' ∉ (takeBytes D n).1 := by
  induction D generalizing n with
  | nil => simp [takeBytes]
  | cons s rest ih =>
    rw [takeBytes.eq_def]
    simp only []
    by_cases hn : n = 0
    · simp [hn]
    · rw [if_neg hn]
      by_cases hs : s.size ≤ n
      · rw [if_pos hs]
        by_cases hnl : s = Sym.rune '\n'
        · subst hnl
          simp [byteLen] at h
          exact absurd h hn
        · have htw : (s :: rest).takeWhile (fun c => c != Sym.rune '\n') =
              s :: rest.takeWhile (fun c => c != Sym.rune '\n') := by
            have hb : (s != Sym.rune '\n') = true := by simpa using hnl
            rw [List.takeWhile_cons, hb]
            rfl
          rw [htw, byteLen_cons] at h
          intro hm
          rcases List.mem_cons.1 hm with h' | h'
          · exact hnl h'.symm
          · exact ih (n - s.size) (by omega) h'
      · rw [if_neg hs]
        cases s with
        | rune c =>
          intro hm
          obtain ⟨b, _, hb⟩ := List.mem_map.1 hm
          exact Sym.noConfusion hb
        | frag b => simp

theorem chompS_initial (l : List Sym) : chompS l <+: l := by
  unfold chompS
  split
  · exact List.dropLast_prefix l
  · exact List.prefix_refl l

theorem takeWhile_eq_self_of_length (p : Sym → Bool) (D : List Sym)
    (h : D.length ≤ (D.takeWhile p).length) : D.takeWhile p = D :=
  (List.takeWhile_prefix p).eq_of_length_le h

theorem not_mem_takeWhile_newline (D : List Sym) :
    Sym.rune '\n' ∉ D.takeWhile (fun c => c != Sym.rune '\n') := by
  intro hm
  have := List.mem_takeWhile_imp hm
  simp at this

/-- One call of `ReadLine` delivers a piece of the store without a line feed
and leaves unread data of the store. -/
theorem readLine_spec (S D L R : List Sym) (n : Nat) (hD : Unread S D)
    (h : readLine n D = some (L, R)) :
    PieceOf S L ∧ Unread S R ∧ Sym.rune '\n' ∉ L := by
  unfold readLine at h
  by_cases hnil : D = []
  · simp [hnil] at h
  · rw [if_neg hnil] at h
    simp only at h
    by_cases h1 : byteLen (D.takeWhile (fun c => c != Sym.rune '\n')) < n ∧
        (D.takeWhile (fun c => c != Sym.rune '\n')).length < D.length
    · rw [if_pos h1] at h
      obtain ⟨rfl, rfl⟩ := Prod.mk.inj (Option.some.inj h)
      refine ⟨pieceOf_initial S D _ (pieceOf_unread S D hD)
        ((chompS_initial _).trans (List.takeWhile_prefix _)),
        unread_suffix S D _ hD (List.drop_suffix _ _), ?_⟩
      exact fun hm => not_mem_takeWhile_newline D ((chompS_initial _).subset hm)
    · rw [if_neg h1] at h
      by_cases h2 : n ≤ byteLen D
      · rw [if_pos h2] at h
        have hpre : n ≤ byteLen (D.takeWhile (fun c => c != Sym.rune '\n')) := by
          by_cases h3 : byteLen (D.takeWhile (fun c => c != Sym.rune '\n')) < n
          · have h4 : D.length ≤ (D.takeWhile (fun c => c != Sym.rune '\n')).length := by
              by_contra h5
              exact h1 ⟨h3, by omega⟩
            rw [takeWhile_eq_self_of_length _ D h4]
            exact h2
          · omega
        have hno := takeBytes_no_newline D n hpre
        obtain ⟨P, f, g, R0, htb, hP, hR, hf, hg⟩ := takeBytes_spec D n
        have hpiece : PieceOf S (takeBytes D n).1 := by
          rw [htb]
          exact pieceOf_append S P f (pieceOf_initial S D P (pieceOf_unread S D hD) hP) hf
        have hun : Unread S (takeBytes D n).2 := by
          rw [htb]
          exact unread_prepend S R0 g (unread_suffix S D R0 hD hR) hg
        by_cases h3 : (takeBytes D n).1.getLast? = some (Sym.rune '\r')
        · rw [if_pos h3] at h
          obtain ⟨rfl, rfl⟩ := Prod.mk.inj (Option.some.inj h)
          refine ⟨pieceOf_initial S _ _ hpiece (List.dropLast_prefix _),
            unread_prepend S _ [Sym.rune '\r'] hun ?_,
            fun hm => hno ((List.dropLast_prefix _).subset hm)⟩
          intro c hc
          simp only [List.map_cons, List.map_nil, List.mem_singleton] at hc
          rw [hc]; rfl
        · rw [if_neg h3] at h
          obtain ⟨rfl, rfl⟩ := Prod.mk.inj (Option.some.inj h)
          exact ⟨hpiece, hun, hno⟩
      · rw [if_neg h2] at h
        obtain ⟨rfl, rfl⟩ := Prod.mk.inj (Option.some.inj h)
        refine ⟨pieceOf_unread S _ hD, ⟨[], [], rfl, delimFree_map_nil, List.nil_suffix⟩, ?_⟩
        have h4 : D.length ≤ (D.takeWhile (fun c => c != Sym.rune '\n')).length := by
          by_contra h5
          have hle : byteLen (D.takeWhile (fun c => c != Sym.rune '\n')) ≤ byteLen D := by
            obtain ⟨t, ht⟩ := List.takeWhile_prefix (fun c => c != Sym.rune '\n') (l := D)
            conv_rhs => rw [← ht]
            rw [byteLen_append]
            omega
          exact h1 ⟨by omega, by omega⟩
        have := not_mem_takeWhile_newline D
        rw [takeWhile_eq_self_of_length _ D h4] at this
        exact this

theorem readLinesAux_spec (S : List Sym) (n fuel : Nat) (D : List Sym) (hD : Unread S D) :
    ∀ L ∈ readLinesAux n fuel D, PieceOf S L ∧ Sym.rune '\n' ∉ L := by
  induction fuel generalizing D with
  | zero => intro L hL; simp [readLinesAux] at hL
  | succ fuel ih =>
    intro L hL
    rw [readLinesAux] at hL
    cases hr : readLine n D with
    | none => rw [hr] at hL; simp at hL
    | some p =>
      obtain ⟨L0, R⟩ := p
      rw [hr] at hL
      obtain ⟨hp, hu, hnl⟩ := readLine_spec S D L0 R n hD hr
      rcases List.mem_cons.1 hL with rfl | h
      · exact ⟨hp, hnl⟩
      · exact ih R hu L h

/-- Every line delivered from a store is a piece of it without a line feed. -/
theorem readLines_spec (S : List Sym) (n : Nat) :
    ∀ L ∈ readLines n S, PieceOf S L ∧ Sym.rune '\n' ∉ L :=
  readLinesAux_spec S n _ S (unread_self S)
/-! ### The rewrite of a delivered piece -/

theorem prefix_strip_right (d : Char) (x m f : List Char) (hf : d ∉ f)
    (h : x ++ [d] <+: m ++ f) : x ++ [d] <+: m := by
  induction m generalizing x with
  | nil =>
    exact absurd (h.subset (by simp)) hf
  | cons c m ih =>
    cases x with
    | nil =>
      have := (List.cons_prefix_cons.1 h).1
      rw [List.nil_append, this]
      exact List.cons_prefix_cons.2 ⟨rfl, List.nil_prefix⟩
    | cons a x =>
      obtain ⟨hac, hx⟩ := List.cons_prefix_cons.1 h
      rw [List.cons_append, hac]
      exact List.cons_prefix_cons.2 ⟨rfl, ih x hx⟩

theorem matchHere_boundedRe_append (o m f : List Char) (hf : DelimFree f) :
    matchHere (boundedRe o) (m ++ f) = matchHere (boundedRe o) m := by
  rw [Bool.eq_iff_iff, matchHere_boundedRe, matchHere_boundedRe]
  constructor
  · rintro ⟨d1, d2, post, h1, h2, heq⟩
    have hpre : (d1 :: o) ++ [d2] <+: m ++ f := ⟨post, by rw [heq]; simp⟩
    obtain ⟨post', hp⟩ := prefix_strip_right d2 _ m f (not_mem_of_delimFree d2 f h2 hf) hpre
    exact ⟨d1, d2, post', h1, h2, by rw [← hp]; simp⟩
  · rintro ⟨d1, d2, post, h1, h2, rfl⟩
    exact ⟨d1, d2, post ++ f, h1, h2, by simp⟩

theorem replaceAllAuxS_nondelim_head (o : List Char) (repl : List Sym → List Sym)
    (a rest : List Sym) (ha : DelimFree (a.map Sym.sem)) :
    replaceAllAuxS (boundedRe o) repl 0 (a ++ rest) =
      a ++ replaceAllAuxS (boundedRe o) repl 0 rest := by
  induction a with
  | nil => rfl
  | cons s a ih =>
    have hs : isDelim s.sem = false := ha _ (by simp)
    have ha' : DelimFree (a.map Sym.sem) := fun c hc => ha c (by simp at hc ⊢; exact Or.inr hc)
    rw [List.cons_append, replaceAllAuxS, List.map_cons,
      matchHere_boundedRe_nondelim o _ _ hs, ih ha']
    simp

theorem replaceAllAuxS_nondelim_tail (o : List Char) (repl : List Sym → List Sym)
    (b : List Sym) (hb : DelimFree (b.map Sym.sem)) (m : List Char) :
    ∀ skip, skip ≤ m.length →
      replaceAllAuxS (boundedRe o) repl skip (text m ++ b) =
        replaceAllAuxS (boundedRe o) repl skip (text m) ++ b := by
  induction m with
  | nil =>
    intro skip hskip
    have h0 : skip = 0 := by simpa using hskip
    subst h0
    have := replaceAllAuxS_nondelim_head o repl b [] hb
    rw [List.append_nil] at this
    rw [show text [] = ([] : List Sym) from rfl, List.nil_append, this]
    simp [replaceAllAuxS]
  | cons c m ih =>
    intro skip hskip
    cases skip with
    | succ k =>
      rw [text_cons, List.cons_append, replaceAllAuxS, replaceAllAuxS]
      exact ih k (by simpa using hskip)
    | zero =>
      have hm : matchHere (boundedRe o) ((Sym.rune c :: (text m ++ b)).map Sym.sem) =
          matchHere (boundedRe o) ((Sym.rune c :: text m).map Sym.sem) := by
        have e1 : (Sym.rune c :: (text m ++ b)).map Sym.sem = (c :: m) ++ b.map Sym.sem := by
          simp [map_sem_text, Sym.sem]
        have e2 : (Sym.rune c :: text m).map Sym.sem = c :: m := by
          simp [map_sem_text, Sym.sem]
        rw [e1, e2, matchHere_boundedRe_append o _ _ hb]
      rw [text_cons, List.cons_append, replaceAllAuxS, replaceAllAuxS, hm]
      cases hmt : matchHere (boundedRe o) ((Sym.rune c :: text m).map Sym.sem) with
      | false =>
        simp only [Bool.false_eq_true, if_false, List.cons_append]
        rw [ih 0 (Nat.zero_le _)]
      | true =>
        have e2 : (Sym.rune c :: text m).map Sym.sem = c :: m := by
          simp [map_sem_text, Sym.sem]
        rw [e2] at hmt
        obtain ⟨d1, d2, post, _, _, heq⟩ := (matchHere_boundedRe o _).1 hmt
        have hlen : (boundedRe o).length ≤ (Sym.rune c :: text m).length := by
          have : (c :: m).length = (d1 :: (o ++ d2 :: post)).length := by rw [heq]
          simp only [List.length_cons, List.length_append] at this
          simp only [boundedRe_length, List.length_cons, text, List.length_map]
          omega
        have htake : (Sym.rune c :: (text m ++ b)).take (boundedRe o).length =
            (Sym.rune c :: text m).take (boundedRe o).length := by
          rw [← List.cons_append, List.take_append_of_le_length hlen]
        have hk : (boundedRe o).length - 1 ≤ m.length := by
          simp only [List.length_cons, text, List.length_map] at hlen
          omega
        simp only [if_true]
        rw [htake, ih _ hk, List.append_assoc]

theorem infix_text (X : List Sym) (data : List Char) (h : X <:+: text data) :
    ∃ m, X = text m ∧ m <:+: data := by
  obtain ⟨s, t, hst⟩ := h
  have h1 := hst.symm
  unfold text at h1
  rw [List.map_eq_append_iff] at h1
  obtain ⟨l1, l2, hd, hl1, rfl⟩ := h1
  rw [List.map_eq_append_iff] at hl1
  obtain ⟨l3, l4, hd', rfl, rfl⟩ := hl1
  exact ⟨l4, rfl, l3, l2, by rw [hd, hd']⟩

theorem sem_eq_newline (s : Sym) (h : s.sem = '\n') : s = Sym.rune '\n' := by
  cases s with
  | rune c => rw [← h]; rfl
  | frag b => exact absurd (show '\uFFFD' = '\n' from h) (by decide)

theorem not_mem_map_sem_newline (l : List Sym) (h : Sym.rune '\n' ∉ l) :
    '\n' ∉ l.map Sym.sem := by
  intro hm
  obtain ⟨s, hs, hsem⟩ := List.mem_map.1 hm
  exact h (by rw [← sem_eq_newline s hsem]; exact hs)

/-- What `readFile` emits for a piece of a store of well-formed text holds
no delimiter-bounded occurrence of the origin any more. -/
theorem processLine_piece (ext : RegexpLib) (A B data : List Char) (hA : PlainName A)
    (hB : DelimFree B) (hB' : '$' ∉ B) (hAB : A ≠ B)
    (hns : ∀ l ∈ textLines data, NoSharedDelim A l) (L : List Sym)
    (hL : PieceOf (text data) L) (hnl : Sym.rune '\n' ∉ L) :
    ∃ E u, processLine (goRegexp ext) (text A) (text B) L = Except.ok (E ++ text crlf, u) ∧
      ¬ BoundedIn A (E.map Sym.sem) := by
  obtain ⟨a, X, b, rfl, ha, hb, hX⟩ := hL
  obtain ⟨m, rfl, hm⟩ := infix_text X data hX
  have hsem : (a ++ text m ++ b).map Sym.sem = a.map Sym.sem ++ m ++ b.map Sym.sem := by
    simp [map_sem_text]
  have hnlm : '\n' ∉ m := by
    intro hc
    have := not_mem_map_sem_newline _ hnl
    rw [hsem] at this
    exact this (by simp [hc])
  have hnsm := noSharedDelim_piece A data m hns hm hnlm
  rw [processLine, regexpMatch_goRegexp ext A hA.2.1]
  cases hflag : containsBounded A ((a ++ text m ++ b).map Sym.sem) with
  | false =>
    refine ⟨a ++ text m ++ b, false, by simp, ?_⟩
    intro hbd
    rw [(containsBounded_iff _ _).2 hbd] at hflag
    exact Bool.noConfusion hflag
  | true =>
    have hbm : BoundedIn A m := by
      rw [hsem] at hflag
      exact boundedIn_strip A _ m _ ha hb ((containsBounded_iff _ _).1 hflag)
    have hemit : emitLine A B m = rewriteLine A B m := by
      rw [emitLine, (containsBounded_iff _ _).2 hbm]
      rfl
    have hout : (goRegexp ext).replaceAllFunc (patternOf (text A)) (a ++ text m ++ b)
        (replaceFunc (goRegexp ext) (text A) (text B)) =
        a ++ text (emitLine A B m) ++ b := by
      rw [goRegexp_replaceAllFunc_pattern ext A hA.2.1, replaceAllFuncS,
        if_neg (boundedRe_ne_nil A), List.append_assoc,
        replaceAllAuxS_nondelim_head A _ a _ ha,
        replaceAllAuxS_nondelim_tail A _ b hb m 0 (Nat.zero_le _),
        replaceAllAuxS_text (boundedRe A) _
          (fun s => replaceAllFunc (A.map Atom.lit) (fun _ => B) s)
          (fun seg => goRegexp_replaceAll_text ext A B seg hA.2.1 hB'),
        ← rewriteLine_eq, hemit, List.append_assoc]
    refine ⟨a ++ text (emitLine A B m) ++ b, true, ?_, ?_⟩
    · simp only [if_true, goRegexp_valid_origin ext A hA.2.1, hout]
    · intro hbd
      have hsem' : (a ++ text (emitLine A B m) ++ b).map Sym.sem =
          a.map Sym.sem ++ emitLine A B m ++ b.map Sym.sem := by
        simp [map_sem_text]
      rw [hsem'] at hbd
      have := (containsBounded_iff _ _).2 (boundedIn_strip A _ _ _ ha hb hbd)
      rw [emitLine_not_bounded A B m hA hB hAB hnsm] at this
      exact Bool.noConfusion this

theorem readFileLoop_emits (lib : RegexpLib) (o t : List Sym) (P : List Sym → Prop)
    (lines : List (List Sym))
    (h : ∀ l ∈ lines, ∃ E u, processLine lib o t l = Except.ok (E ++ text crlf, u) ∧ P E)
    (out0 : List Sym) (f0 : Bool) :
    ∃ (Es : List (List Sym)) (u : Bool), readFileLoop lib o t none lines out0 f0 =
        Except.ok (out0 ++ Es.flatMap (fun E => E ++ text crlf), u) ∧ ∀ E ∈ Es, P E := by
  induction lines generalizing out0 f0 with
  | nil => exact ⟨[], f0, by simp [readFileLoop], fun _ hE => absurd hE (List.not_mem_nil _)⟩
  | cons l ls ih =>
    obtain ⟨E, u, hp, hE⟩ := h l (List.mem_cons_self _ _)
    obtain ⟨Es, u', hr, hEs⟩ := ih (fun x hx => h x (List.mem_cons_of_mem _ hx))
      (out0 ++ (E ++ text crlf)) (f0 || u)
    refine ⟨E :: Es, u', ?_, ?_⟩
    · rw [readFileLoop, hp]
      simp only []
      rw [hr, List.flatMap_cons, List.append_assoc]
    · intro x hx
      rcases List.mem_cons.1 hx with rfl | hx'
      · exact hE
      · exact hEs x hx'

theorem map_sem_flatMap_crlf (Es : List (List Sym)) :
    (Es.flatMap (fun E => E ++ text crlf)).map Sym.sem =
      (Es.map (List.map Sym.sem)).flatMap (fun e => e ++ crlf) := by
  induction Es with
  | nil => rfl
  | cons E Es ih =>
    rw [List.flatMap_cons, List.map_cons, List.flatMap_cons, List.map_append, ih,
      List.map_append, map_sem_text]

/-- A line read from a store that `readFile` wrote from lines without a
bounded occurrence is not flagged. -/
theorem not_bounded_second_pass (A : List Char) (Es : List (List Sym))
    (hEs : ∀ E ∈ Es, ¬ BoundedIn A (E.map Sym.sem)) (n : Nat) :
    ∀ l ∈ readLines n (Es.flatMap (fun E => E ++ text crlf)),
      containsBounded A (l.map Sym.sem) = false := by
  intro l hl
  obtain ⟨⟨a, X, b, rfl, ha, hb, hX⟩, hnl⟩ := readLines_spec _ n l hl
  apply containsBounded_false_of_not
  have hsem : (a ++ X ++ b).map Sym.sem = a.map Sym.sem ++ X.map Sym.sem ++ b.map Sym.sem := by
    simp
  rw [hsem]
  apply not_bounded_read_back A (Es.map (List.map Sym.sem)) _ _ _ _ ha hb
  · rw [← map_sem_flatMap_crlf]
    exact hX.map _
  · exact not_mem_map_sem_newline X (fun hm => hnl (by simp [hm]))
  · intro e he
    obtain ⟨E, hE, rfl⟩ := List.mem_map.1 he
    exact hEs E hE
/-! ### Second pass and round trip -/

/-- C5 (amended): for a plain name A and a target B without `,`, `"` or `$`,
A different from B, and a store of well-formed text in no line of which two
delimiter-bounded occurrences of A share a boundary character: if `rename`
A to B reports an update, then `readFile` with the same A and B on the
rewritten store completes and reports `updated = false`, whatever the length
of the lines. -/
theorem second_pass_not_updated (ext : RegexpLib) (root : String) (data A B : List Char)
    (hA : PlainName A) (hB : DelimFree B) (hB' : '$' ∉ B) (hAB : A ≠ B)
    (hns : ∀ l ∈ textLines data, NoSharedDelim A l)
    (hup : (rename (goRegexp ext) (storeAt (root ++ FILENAME) data) root
      (text A) (text B)).2 = Except.ok true) :
    ∃ out2, readFile (goRegexp ext)
      (rename (goRegexp ext) (storeAt (root ++ FILENAME) data) root (text A) (text B)).1
      (root ++ FILENAME) (text A) (text B) = Except.ok (out2, false) := by
  obtain ⟨Es, u, h1, hEs⟩ := readFileLoop_emits (goRegexp ext) (text A) (text B)
    (fun E => ¬ BoundedIn A (E.map Sym.sem)) (readLines defaultBufSize (text data))
    (fun l hl =>
      processLine_piece ext A B data hA hB hB' hAB hns l
        (readLines_spec (text data) defaultBufSize l hl).1
        (readLines_spec (text data) defaultBufSize l hl).2) [] false
  rw [← readFile_storeAt (goRegexp ext) (root ++ FILENAME) data] at h1
  have hren := rename_storeOf (goRegexp ext) root (text data) (text A) (text B) _ u h1
  have hst : storeAt (root ++ FILENAME) data = storeOf (root ++ FILENAME) (text data) := rfl
  rw [hst] at hup ⊢
  rw [hren] at hup ⊢
  have hu : u = true := Except.ok.inj hup
  subst hu
  simp only [if_true, List.nil_append]
  rw [readFile_storeOf]
  have hno : ∀ l ∈ readLines defaultBufSize (Es.flatMap (fun E => E ++ text crlf)),
      regexpMatch (goRegexp ext) (patternOf (text A)) l = false := by
    intro l hl
    rw [regexpMatch_goRegexp ext A hA.2.1]
    exact not_bounded_second_pass A Es hEs defaultBufSize l hl
  rw [readFileLoop_unflagged _ _ _ _ hno]
  exact ⟨_, rfl⟩

/-- Witness for C5 (amended): the scenario store, renamed once. -/
theorem second_pass_not_updated_witness :
    PlainName "供应链事业部".toList ∧ DelimFree "TV供应链事业部".toList ∧
    '$' ∉ "TV供应链事业部".toList ∧ "供应链事业部".toList ≠ "TV供应链事业部".toList ∧
    (∀ l ∈ textLines "id1,供应链事业部,x\nid2,y\n".toList,
      NoSharedDelim "供应链事业部".toList l) ∧
    ∀ ext,
      (rename (goRegexp ext) (storeAt ("" ++ FILENAME) "id1,供应链事业部,x\nid2,y\n".toList) ""
        (text "供应链事业部".toList) (text "TV供应链事业部".toList)).2 = Except.ok true ∧
      ∃ out2, readFile (goRegexp ext)
        (rename (goRegexp ext) (storeAt ("" ++ FILENAME) "id1,供应链事业部,x\nid2,y\n".toList) ""
          (text "供应链事业部".toList) (text "TV供应链事业部".toList)).1
        ("" ++ FILENAME) (text "供应链事业部".toList) (text "TV供应链事业部".toList) =
        Except.ok (out2, false) :=
  ⟨by decide, by decide, by decide, by decide,
   fun l hl => (noSharedDelim_iff _ _ (by decide)).2
      ((by decide : ∀ l ∈ textLines "id1,供应链事业部,x\nid2,y\n".toList,
        adjInterior "供应链事业部".toList (toFields l).2 = false) l hl),
   fun ext => ⟨rfl,
    second_pass_not_updated ext "" "id1,供应链事业部,x\nid2,y\n".toList
      "供应链事业部".toList "TV供应链事业部".toList (by decide) (by decide) (by decide)
      (by decide)
      (fun l hl => (noSharedDelim_iff _ _ (by decide)).2
        ((by decide : ∀ l ∈ textLines "id1,供应链事业部,x\nid2,y\n".toList,
          adjInterior "供应链事业部".toList (toFields l).2 = false) l hl))
      rfl⟩⟩

/-- C5 (as stated) fails: with target equal to origin, with a target that
itself holds `,A,`, with an origin that is a pattern (`x.`), and with two
occurrences that share a boundary character (`,A,A,`), the first rename
rewrites the store and the second pass reports an update again.  With the
target `$0` the outcome is that of the template expansion of `regexp`: when
it reinserts the match, the second pass reports an update again as well. -/
theorem second_pass_updated_counterexample :
    (∀ ext, (rename (goRegexp ext) (storeAt "test.txt" ",A,\n".toList) ""
          (text "A".toList) (text "A".toList)).2 = Except.ok true ∧
      (readFile (goRegexp ext) (rename (goRegexp ext) (storeAt "test.txt" ",A,\n".toList) ""
          (text "A".toList) (text "A".toList)).1
        "test.txt" (text "A".toList) (text "A".toList)).map Prod.snd = Except.ok true) ∧
    (∀ ext, (rename (goRegexp ext) (storeAt "test.txt" ",A,\n".toList) ""
          (text "A".toList) (text "x,A,y".toList)).2 = Except.ok true ∧
      (readFile (goRegexp ext) (rename (goRegexp ext) (storeAt "test.txt" ",A,\n".toList) ""
          (text "A".toList) (text "x,A,y".toList)).1
        "test.txt" (text "A".toList) (text "x,A,y".toList)).map Prod.snd = Except.ok true) ∧
    (∀ ext, (rename (goRegexp ext) (storeAt "test.txt" ",xa,\n".toList) ""
          (text "x.".toList) (text "xb".toList)).2 = Except.ok true ∧
      (readFile (goRegexp ext) (rename (goRegexp ext) (storeAt "test.txt" ",xa,\n".toList) ""
          (text "x.".toList) (text "xb".toList)).1
        "test.txt" (text "x.".toList) (text "xb".toList)).map Prod.snd = Except.ok true) ∧
    (∀ ext, (rename (goRegexp ext) (storeAt "test.txt" ",A,A,\n".toList) ""
          (text "A".toList) (text "B".toList)).2 = Except.ok true ∧
      (readFile (goRegexp ext) (rename (goRegexp ext) (storeAt "test.txt" ",A,A,\n".toList) ""
          (text "A".toList) (text "B".toList)).1
        "test.txt" (text "A".toList) (text "B".toList)).map Prod.snd = Except.ok true) ∧
    (∃ ext, (rename (goRegexp ext) (storeAt "test.txt" ",A,\n".toList) ""
          (text "A".toList) (text "$0".toList)).2 = Except.ok true ∧
      (readFile (goRegexp ext) (rename (goRegexp ext) (storeAt "test.txt" ",A,\n".toList) ""
          (text "A".toList) (text "$0".toList)).1
        "test.txt" (text "A".toList) (text "$0".toList)).map Prod.snd = Except.ok true) :=
  ⟨fun _ => ⟨rfl, rfl⟩, fun _ => ⟨rfl, rfl⟩, fun _ => ⟨rfl, rfl⟩, fun _ => ⟨rfl, rfl⟩,
   ⟨{ valid := fun _ => true, isMatch := fun _ _ => false,
      replaceAllFunc := fun _ src _ => src, replaceAll := fun _ src _ => src }, rfl, rfl⟩⟩

/-- The shared boundary character: in `,A,A,` the comma that closes the first
occurrence is consumed with it, so the second occurrence is not renamed, and
a second pass over the emitted line flags it again. -/
theorem shared_delimiter_skipped (ext : RegexpLib) :
    processLine (goRegexp ext) (text "A".toList) (text "B".toList) (text ",A,A,".toList) =
        Except.ok (text ",B,A,\r\n".toList, true) ∧
      replaceEveryBounded "A".toList "B".toList 0 ",A,A,".toList = ",B,B,".toList ∧
      processLine (goRegexp ext) (text "A".toList) (text "B".toList) (text ",B,A,".toList) =
        Except.ok (text ",B,B,\r\n".toList, true) :=
  ⟨rfl, rfl, rfl⟩

theorem rename_storeAt (lib : RegexpLib) (root : String) (data : List Char)
    (o t : List Sym) (out : List Char) (u : Bool)
    (h : readFile lib (storeAt (root ++ FILENAME) data) (root ++ FILENAME) o t =
      Except.ok (text out, u)) :
    rename lib (storeAt (root ++ FILENAME) data) root o t =
      (storeAt (root ++ FILENAME) (if u then out else data), Except.ok u) := by
  have := rename_storeOf lib root (text data) o t (text out) u h
  rw [show storeAt (root ++ FILENAME) data = storeOf (root ++ FILENAME) (text data) from rfl,
    this]
  cases u <;> rfl

/-- C6 (amended): for plain names A and B, B free of line feeds, and a store
whose lines fit in the reader's buffer, some line of which holds a
delimiter-bounded A and no line of which holds a delimiter-bounded B: if the
lines of the store rewritten by `rename` A to B also fit in the buffer, then
both renames report an update and after `rename` B to A the store holds the
line contents of the original store, byte for byte and in order, each followed
by CR LF. -/
theorem rename_round_trip (ext : RegexpLib) (root : String) (data A B : List Char)
    (hA : PlainName A) (hB : PlainName B) (hnl : '\n' ∉ B)
    (hshort : ∀ l ∈ textLines data, utf8Len l + 1 < defaultBufSize)
    (hflag : ∃ l ∈ textLines data, BoundedIn A l)
    (hnoB : ∀ l ∈ textLines data, ¬ BoundedIn B l)
    (hshort1 : ∀ l ∈ textLines data, utf8Len (emitLine A B l) + 1 < defaultBufSize) :
    (rename (goRegexp ext) (storeAt (root ++ FILENAME) data) root (text A) (text B)).2 =
        Except.ok true ∧
      rename (goRegexp ext)
          (rename (goRegexp ext) (storeAt (root ++ FILENAME) data) root (text A) (text B)).1
          root (text B) (text A) =
        (storeAt (root ++ FILENAME) ((textLines data).flatMap (fun l => l ++ crlf)),
          Except.ok true) := by
  have hA' := not_mem_dollar_of_metaFree _ hA.2.1
  have hB' := not_mem_dollar_of_metaFree _ hB.2.1
  have h1 := readFile_short_lines ext (root ++ FILENAME) data A B hA.2.1 hB' hshort
  have hren := rename_storeAt (goRegexp ext) root data (text A) (text B) _ _ h1
  obtain ⟨l0, hl0, hb0⟩ := hflag
  have hu : (textLines data).any (containsBounded A) = true :=
    List.any_eq_true.2 ⟨l0, hl0, (containsBounded_iff A l0).2 hb0⟩
  rw [hu] at hren
  simp only [if_true] at hren
  rw [hren]
  refine ⟨rfl, ?_⟩
  simp only
  have hlines := textLines_rewritten A B hA hnl data
  have hshort2 : ∀ l ∈ textLines ((textLines data).flatMap (fun l => emitLine A B l ++ crlf)),
      utf8Len l + 1 < defaultBufSize := by
    rw [hlines]
    intro e he
    obtain ⟨l, hl, rfl⟩ := List.mem_map.1 he
    exact hshort1 l hl
  have h2 := readFile_short_lines ext (root ++ FILENAME) _ B A hB.2.1 hA' hshort2
  rw [hlines] at h2
  have hback : ((textLines data).map (emitLine A B)).flatMap (fun l => emitLine B A l ++ crlf) =
      (textLines data).flatMap (fun l => l ++ crlf) := by
    rw [List.flatMap_map]
    apply List.flatMap_congr
    intro l hl
    rw [emitLine_round_trip A B l hA hB (containsBounded_false_of_not B l (hnoB l hl))]
  have hu2 : ((textLines data).map (emitLine A B)).any (containsBounded B) = true :=
    List.any_eq_true.2 ⟨emitLine A B l0, List.mem_map.2 ⟨l0, hl0, rfl⟩,
      emitLine_flagged A B l0 hA hB ((containsBounded_iff A l0).2 hb0)⟩
  rw [hback, hu2] at h2
  have hren2 := rename_storeAt (goRegexp ext) root _ (text B) (text A) _ _ h2
  simpa using hren2

/-- Witness for C6 (amended): the scenario store, renamed and renamed back. -/
theorem rename_round_trip_witness :
    PlainName "供应链事业部".toList ∧ PlainName "TV供应链事业部".toList ∧
    (∃ l ∈ textLines "id1,供应链事业部,x\nid2,y\n".toList, BoundedIn "供应链事业部".toList l) ∧
    ∀ ext,
    (rename (goRegexp ext) (storeAt ("" ++ FILENAME) "id1,供应链事业部,x\nid2,y\n".toList) ""
        (text "供应链事业部".toList) (text "TV供应链事业部".toList)).2 = Except.ok true ∧
      rename (goRegexp ext)
          (rename (goRegexp ext) (storeAt ("" ++ FILENAME) "id1,供应链事业部,x\nid2,y\n".toList) ""
            (text "供应链事业部".toList) (text "TV供应链事业部".toList)).1 ""
          (text "TV供应链事业部".toList) (text "供应链事业部".toList) =
        (storeAt ("" ++ FILENAME)
          ((textLines "id1,供应链事业部,x\nid2,y\n".toList).flatMap (fun l => l ++ crlf)),
          Except.ok true) :=
  ⟨by decide, by decide,
   ⟨"id1,供应链事业部,x".toList, by decide, (containsBounded_iff _ _).1 (by decide)⟩,
   fun ext => rename_round_trip ext "" "id1,供应链事业部,x\nid2,y\n".toList
    "供应链事业部".toList "TV供应链事业部".toList (by decide) (by decide) (by decide) (by decide)
    ⟨"id1,供应链事业部,x".toList, by decide, (containsBounded_iff _ _).1 (by decide)⟩
    (fun l hl hb => absurd ((containsBounded_iff _ _).2 hb)
      ((by decide : ∀ l ∈ textLines "id1,供应链事业部,x\nid2,y\n".toList,
          ¬ containsBounded "TV供应链事业部".toList l = true) l hl))
    (by decide)⟩

/-- C6 (as stated) fails: when B already stands between boundary characters
in the store, renaming A to B and back turns that B into A as well; when
nothing is flagged no rename writes, so the store keeps its LF terminators;
and a B holding a line feed is cut in two lines and not found again. -/
theorem rename_round_trip_counterexample :
    (∀ ext, (rename (goRegexp ext) (rename (goRegexp ext)
          (storeAt "test.txt" ",A,x,B,\n".toList) "" (text "A".toList) (text "B".toList)).1 ""
        (text "B".toList) (text "A".toList)).1 "test.txt" =
      some { data := text ",A,x,A,\r\n".toList, fault := none }) ∧
    textLines ",A,x,B,\n".toList = [",A,x,B,".toList] ∧
    (∀ ext, (rename (goRegexp ext) (rename (goRegexp ext)
          (storeAt "test.txt" "x\n".toList) "" (text "A".toList) (text "B".toList)).1 ""
        (text "B".toList) (text "A".toList)).1 "test.txt" =
      some { data := text "x\n".toList, fault := none }) ∧
    (∀ ext, (rename (goRegexp ext) (rename (goRegexp ext)
          (storeAt "test.txt" ",A,\n".toList) "" (text "A".toList) (text "B\nC".toList)).1 ""
        (text "B\nC".toList) (text "A".toList)).1 "test.txt" =
      some { data := text ",B\nC,\r\n".toList, fault := none }) :=
  ⟨fun _ => rfl, rfl, fun _ => rfl, fun _ => rfl⟩

end Rename
